import Mathlib

/-!
Verification development for the HWNP firmware codec implemented in
`tools/firmware-editor/firmware_editor.py`.

The byte buffer is modelled as `List Nat` (one entry per byte). Python
`bytearray` slice assignment `raw[a : a + len(v)] = v` is modelled by
`setSlice`, and slicing `raw[a : a + n]` by `bslice`. Character strings that
arise by decoding bytes are modelled as lists of Unicode code points
(ASCII `errors="replace"` decoding maps every byte at or above 128 to the
replacement code point 65533). Python exceptions raised by the mutation
methods are modelled by the `EditResult` sum type; an error result carries
no firmware value, mirroring the fact that the methods raise before any
mutation. `save` writes `self.raw` verbatim to disk, so it is modelled as
returning the updated firmware value whose `raw` field is the serialized
byte buffer.
-/

/-- Byte at position `p`, default 0 out of range. -/
def byteAt (l : List Nat) (p : Nat) : Nat := l.getD p 0

/-- `bslice l a n` is Python `l[a : a + n]`. -/
def bslice (l : List Nat) (a n : Nat) : List Nat := (l.drop a).take n

/-- `setSlice l a v` is Python `l[a : a + len(v)] = v` on a bytearray:
the target range is replaced by `v`, growing the buffer when the range
reaches past the end. -/
def setSlice (l : List Nat) (a : Nat) (v : List Nat) : List Nat :=
  l.take a ++ v ++ l.drop (a + v.length)

/-- Little-endian 32-bit value of (the first four bytes of) a list,
as `struct.unpack("<I", ...)`. -/
def le32 (l : List Nat) : Nat :=
  l.getD 0 0 + 256 * l.getD 1 0 + 65536 * l.getD 2 0 + 16777216 * l.getD 3 0

/-- Big-endian 32-bit value, as `struct.unpack(">I", ...)`. -/
def be32 (l : List Nat) : Nat :=
  l.getD 3 0 + 256 * l.getD 2 0 + 65536 * l.getD 1 0 + 16777216 * l.getD 0 0

/-- Read a little-endian 32-bit field at byte offset `off`. -/
def readLE32 (l : List Nat) (off : Nat) : Nat := le32 (bslice l off 4)

/-- Read a big-endian 32-bit field at byte offset `off`. -/
def readBE32 (l : List Nat) (off : Nat) : Nat := be32 (bslice l off 4)

/-- The four little-endian bytes of a 32-bit value, as
`struct.pack_into("<I", ...)` writes them. -/
def le32Of (n : Nat) : List Nat :=
  [n % 256, n / 256 % 256, n / 65536 % 256, n / 16777216 % 256]

/-! CRC-32, standard (reflected) polynomial 0xEDB88320, the algorithm of
`binascii.crc32`; the source's `crc32` additionally masks to 32 bits. -/

def crcPoly : Nat := 0xEDB88320

def crc32Bit (crc : Nat) : Nat :=
  if crc % 2 == 1 then (crc / 2) ^^^ crcPoly else crc / 2

def crc32Bits : Nat → Nat → Nat
  | 0, crc => crc
  | k + 1, crc => crc32Bits k (crc32Bit crc)

def crc32Aux : List Nat → Nat → Nat
  | [], crc => crc
  | b :: rest, crc => crc32Aux rest (crc32Bits 8 (crc ^^^ b))

/-- Embeds the source's `crc32(data)`: `binascii.crc32(data) & 0xFFFFFFFF`. -/
def crc32 (data : List Nat) : Nat :=
  ((crc32Aux data 0xFFFFFFFF) ^^^ 0xFFFFFFFF) &&& 0xFFFFFFFF

/-! SHA-256 (FIPS 180-4), the algorithm of `hashlib.sha256`. -/

def w32 (x : Nat) : Nat := x % 4294967296

def rotr32 (x k : Nat) : Nat := x / 2 ^ k + x % 2 ^ k * 2 ^ (32 - k)

def shaCh (x y z : Nat) : Nat := (x &&& y) ^^^ ((x ^^^ 4294967295) &&& z)

def shaMaj (x y z : Nat) : Nat := (x &&& y) ^^^ (x &&& z) ^^^ (y &&& z)

def bsig0 (x : Nat) : Nat := rotr32 x 2 ^^^ rotr32 x 13 ^^^ rotr32 x 22

def bsig1 (x : Nat) : Nat := rotr32 x 6 ^^^ rotr32 x 11 ^^^ rotr32 x 25

def ssig0 (x : Nat) : Nat := rotr32 x 7 ^^^ rotr32 x 18 ^^^ x / 8

def ssig1 (x : Nat) : Nat := rotr32 x 17 ^^^ rotr32 x 19 ^^^ x / 1024

def shaK : List Nat :=
  [1116352408, 1899447441, 3049323471, 3921009573, 961987163,
   1508970993, 2453635748, 2870763221, 3624381080, 310598401,
   607225278, 1426881987, 1925078388, 2162078206, 2614888103,
   3248222580, 3835390401, 4022224774, 264347078, 604807628,
   770255983, 1249150122, 1555081692, 1996064986, 2554220882,
   2821834349, 2952996808, 3210313671, 3336571891, 3584528711,
   113926993, 338241895, 666307205, 773529912, 1294757372,
   1396182291, 1695183700, 1986661051, 2177026350, 2456956037,
   2730485921, 2820302411, 3259730800, 3345764771, 3516065817,
   3600352804, 4094571909, 275423344, 430227734, 506948616,
   659060556, 883997877, 958139571, 1322822218, 1537002063,
   1747873779, 1955562222, 2024104815, 2227730452, 2361852424,
   2428436474, 2756734187, 3204031479, 3329325298]

def shaH0 : List Nat :=
  [1779033703, 3144134277, 1013904242, 2773480762,
   1359893119, 2600822924, 528734635, 1541459225]

def toWordsBE : List Nat → List Nat
  | b0 :: b1 :: b2 :: b3 :: rest =>
      (((b0 * 256 + b1) * 256 + b2) * 256 + b3) :: toWordsBE rest
  | _ => []

def extendW : Nat → List Nat → List Nat
  | 0, w => w
  | k + 1, w =>
      extendW k (w ++ [w32 (ssig1 (w.getD (w.length - 2) 0) + w.getD (w.length - 7) 0 +
        ssig0 (w.getD (w.length - 15) 0) + w.getD (w.length - 16) 0)])

def roundStep (st : List Nat) (kw : Nat × Nat) : List Nat :=
  let a := st.getD 0 0
  let b := st.getD 1 0
  let c := st.getD 2 0
  let d := st.getD 3 0
  let e := st.getD 4 0
  let f := st.getD 5 0
  let g := st.getD 6 0
  let h := st.getD 7 0
  let t1 := w32 (h + bsig1 e + shaCh e f g + kw.1 + kw.2)
  let t2 := w32 (bsig0 a + shaMaj a b c)
  [w32 (t1 + t2), a, b, c, w32 (d + t1), e, f, g]

def compress (H block : List Nat) : List Nat :=
  let w := extendW 48 (toWordsBE block)
  let st := (shaK.zip w).foldl roundStep H
  (H.zip st).map fun p => w32 (p.1 + p.2)

def be64Of (n : Nat) : List Nat :=
  [n / 72057594037927936 % 256, n / 281474976710656 % 256,
   n / 1099511627776 % 256, n / 4294967296 % 256,
   n / 16777216 % 256, n / 65536 % 256, n / 256 % 256, n % 256]

def shaPad (msg : List Nat) : List Nat :=
  msg ++ 128 :: (List.replicate ((119 - msg.length % 64) % 64) 0 ++ be64Of (8 * msg.length))

def shaBlocksAux : Nat → List Nat → List Nat → List Nat
  | 0, H, _ => H
  | fuel + 1, H, l =>
      if l.isEmpty then H else shaBlocksAux fuel (compress H (l.take 64)) (l.drop 64)

def sha256Words (msg : List Nat) : List Nat :=
  let p := shaPad msg
  shaBlocksAux p.length shaH0 p

def be4Of (n : Nat) : List Nat :=
  [n / 16777216 % 256, n / 65536 % 256, n / 256 % 256, n % 256]

/-- The 32 digest bytes of SHA-256. -/
def sha256Bytes (msg : List Nat) : List Nat := ((sha256Words msg).map be4Of).flatten

def hexDigitL (d : Nat) : Nat := if d < 10 then 48 + d else 87 + d

def byteHexL (b : Nat) : List Nat := [hexDigitL (b / 16), hexDigitL (b % 16)]

/-- The 64 lowercase-hex character codes of `hashlib.sha256(msg).hexdigest()`. -/
def sha256HexCodes (msg : List Nat) : List Nat := ((sha256Bytes msg).map byteHexL).flatten

/-! Strict UTF-8 decoding, the behaviour of Python `bytes.decode("utf-8")`:
rejects overlong encodings, surrogates and code points above 0x10FFFF.
Returns the decoded code points, or `none` on a `UnicodeDecodeError`. -/

def utf8Cont (b : Nat) : Bool := 128 ≤ b && b < 192

def utf8Decode : List Nat → Option (List Nat)
  | [] => some []
  | b :: rest =>
    if b < 128 then (utf8Decode rest).map (b :: ·)
    else if b < 194 then none
    else if b < 224 then
      match rest with
      | b1 :: r =>
          if utf8Cont b1 then (utf8Decode r).map (((b - 192) * 64 + (b1 - 128)) :: ·)
          else none
      | [] => none
    else if b < 240 then
      match rest with
      | b1 :: b2 :: r =>
          if (if b == 224 then decide (160 ≤ b1) && decide (b1 < 192)
              else if b == 237 then decide (128 ≤ b1) && decide (b1 < 160)
              else utf8Cont b1) && utf8Cont b2 then
            (utf8Decode r).map ((((b - 224) * 64 + (b1 - 128)) * 64 + (b2 - 128)) :: ·)
          else none
      | _ => none
    else if b < 245 then
      match rest with
      | b1 :: b2 :: b3 :: r =>
          if (if b == 240 then decide (144 ≤ b1) && decide (b1 < 192)
              else if b == 244 then decide (128 ≤ b1) && decide (b1 < 144)
              else utf8Cont b1) && utf8Cont b2 && utf8Cont b3 then
            (utf8Decode r).map (((((b - 240) * 64 + (b1 - 128)) * 64 + (b2 - 128)) * 64 +
              (b3 - 128)) :: ·)
          else none
      | _ => none
    else none

/-- ASCII decoding with `errors="replace"`: bytes at or above 128 become the
replacement code point 65533; one character per byte. -/
def asciiReplaceChar (b : Nat) : Nat := if b < 128 then b else 65533

def decodeAsciiReplace (l : List Nat) : List Nat := l.map asciiReplaceChar

/-! Character-list utilities mirroring the Python `str` operations used. -/

def isPrefixB : List Nat → List Nat → Bool
  | [], _ => true
  | _ :: _, [] => false
  | a :: as, b :: bs => a == b && isPrefixB as bs

/-- Substring containment (`needle in haystack` on Python strings). -/
def containsSub (needle : List Nat) : List Nat → Bool
  | [] => needle.isEmpty
  | h :: rest => isPrefixB needle (h :: rest) || containsSub needle rest

/-- `s.replace("file:", "")`: removes every occurrence, left to right.
The codes 102 105 108 101 58 spell the scheme marker. -/
def replaceFile : List Nat → List Nat
  | 102 :: 105 :: 108 :: 101 :: 58 :: rest => replaceFile rest
  | c :: rest => c :: replaceFile rest
  | [] => []

/-- `s.endswith(suffix)`. -/
def listEndsWith (l suffix : List Nat) : Bool :=
  l.drop (l.length - suffix.length) == suffix

/-- Split on the delimiter byte 124 (`"|"`), as Python `str.split("|")`:
always returns at least one (possibly empty) fragment. -/
def splitSep : List Nat → List (List Nat)
  | [] => [[]]
  | c :: rest =>
    match splitSep rest with
    | [] => [[]]
    | f :: fs => if c == 124 then [] :: f :: fs else (c :: f) :: fs

/-- `"|".join(ids)`. -/
def joinPids : List (List Nat) → List Nat
  | [] => []
  | [x] => x
  | x :: y :: rest => x ++ 124 :: joinPids (y :: rest)

/-- Python whitespace (`str.isspace` / regex `\s`) restricted to the code
points reachable from ASCII-with-replacement decoding. -/
def isSpace (c : Nat) : Bool := c == 32 || (9 ≤ c && c ≤ 13) || (28 ≤ c && c ≤ 31)

/-- `str.strip()`. -/
def stripWs (l : List Nat) : List Nat :=
  ((l.dropWhile isSpace).reverse.dropWhile isSpace).reverse

def isHexLower (c : Nat) : Bool := (48 ≤ c && c ≤ 57) || (97 ≤ c && c ≤ 102)

/-! Content classification (`_parse`, lines 127-154). -/

inductive ContentType where
  | xml | shell | flag | text | binary
deriving DecidableEq

def shExt : List Nat := [46, 115, 104]

def xmlExt : List Nat := [46, 120, 109, 108]

def hexDigitU (d : Nat) : Nat := if d < 10 then 48 + d else 55 + d

/-- The four character codes of `f"0x{b:02X}"` for a byte value. -/
def byteHexU (b : Nat) : List Nat := [48, 120, hexDigitU (b / 16), hexDigitU (b % 16)]

/-- `" ".join(f"0x{b:02X}" for b in data)`. -/
def hexRender : List Nat → List Nat
  | [] => []
  | [b] => byteHexU b
  | b :: rest => byteHexU b ++ 32 :: hexRender rest

def isTextByte (b : Nat) : Bool := b == 0 || (9 ≤ b && b ≤ 13) || (32 ≤ b && b ≤ 126)

/-- The content-type / text-content decision of `_parse` for one section,
given the scheme-stripped file name, the payload bytes and the declared
data size. -/
def classifyContent (fileName payload : List Nat) (dataSize : Nat) :
    ContentType × Option (List Nat) :=
  if listEndsWith fileName shExt then
    match utf8Decode payload with
    | some t => (.shell, some t)
    | none => (.binary, none)
  else if listEndsWith fileName xmlExt then
    match utf8Decode payload with
    | some t => (.xml, some t)
    | none => (.binary, none)
  else if dataSize ≤ 4 then (.flag, some (hexRender payload))
  else if payload.all isTextByte && dataSize < 65536 then (.text, utf8Decode payload)
  else (.binary, none)

/-! The data model: `HWNPSection` and `HWNPFirmware`. -/

structure HWNPSection where
  index : Nat
  item_crc : Nat
  stored_offset : Nat
  data_offset : Nat
  data_size : Nat
  path : List Nat
  label : List Nat
  data : List Nat
  content_type : ContentType
  text_content : Option (List Nat)
  desc_raw : List Nat
deriving DecidableEq

def dSection : HWNPSection :=
  ⟨0, 0, 0, 0, 0, [], [], [], .binary, none, []⟩

structure HWNPFirmware where
  raw : List Nat
  payload_size : Nat
  head_crc : Nat
  head_len : Nat
  file_crc : Nat
  item_num : Nat
  version : Nat
  item_desc_size : Nat
  product_ids : List (List Nat)
  computed_crc : Nat
  crc_valid : Bool
  sections : List HWNPSection
deriving DecidableEq

def dFirmware : HWNPFirmware := ⟨[], 0, 0, 0, 0, 0, 0, 0, [], 0, false, []⟩

def hwnpMagic : List Nat := [72, 87, 78, 80]

/-- Cut a field at its first NUL if it has one, else at `cap` bytes
(`path_end = path_bytes.index(0) if 0 in path_bytes else cap`). -/
def cutAtNul (l : List Nat) (cap : Nat) : List Nat :=
  l.take (if l.contains 0 then l.findIdx (fun b => b == 0) else cap)

/-- Decode the product-ID list from the buffer (`_parse`, lines 93-96):
scan for the first NUL from offset 0x24 if one occurs within the
260-byte window, decode ASCII-with-replacement, split on `"|"`, drop
empty fragments. -/
def decodeProductIds (raw : List Nat) : List (List Nat) :=
  let pidEnd :=
    if (bslice raw 36 260).contains 0 then 36 + (raw.drop 36).findIdx (fun b => b == 0)
    else 296
  let pidStr := decodeAsciiReplace (bslice raw 36 (pidEnd - 36))
  (splitSep pidStr).filter (fun s => !s.isEmpty)

/-- Start of the descriptor entry for section `i` (0x128 + i * 360). -/
def descOff (i : Nat) : Nat := 296 + i * 360

/-- Advance the running data offset past a section and round up to the
next multiple of 4 (`_parse`, lines 163-165). -/
def nextOffset (off size : Nat) : Nat :=
  let o := off + size
  if o % 4 ≠ 0 then o + (4 - o % 4) else o

/-- Build one section from its descriptor bytes and payload
(`_parse`, lines 106-161). -/
def mkSection (i off : Nat) (descRaw payload : List Nat) : HWNPSection :=
  let path := decodeAsciiReplace (cutAtNul (bslice descRaw 12 256) 256)
  let ct := classifyContent (replaceFile path) payload (le32 (bslice descRaw 8 4))
  { index := i
    item_crc := le32 (descRaw.take 4)
    stored_offset := le32 (bslice descRaw 4 4)
    data_offset := off
    data_size := le32 (bslice descRaw 8 4)
    path := path
    label := decodeAsciiReplace (cutAtNul (bslice descRaw 268 92) 92)
    data := payload
    content_type := ct.1
    text_content := ct.2
    desc_raw := descRaw }

/-- The section loop of `_parse`: `k` sections remain, the next has index
`i` and computed data offset `off`. Returns `none` when the buffer is too
short to unpack a descriptor's fixed fields (a `struct.error` in Python). -/
def parseSections (raw : List Nat) : Nat → Nat → Nat → Option (List HWNPSection)
  | 0, _, _ => some []
  | k + 1, i, off =>
    if raw.length < descOff i + 12 then none
    else
      let descRaw := bslice raw (descOff i) 360
      let size := le32 (bslice descRaw 8 4)
      let sec := mkSection i off descRaw (bslice raw off size)
      match parseSections raw k (i + 1) (nextOffset off size) with
      | none => none
      | some rest => some (sec :: rest)

/-- `HWNPFirmware._parse` (with the constructor's file read abstracted away):
`none` models the exceptions raised on a bad magic or a too-short buffer. -/
def parse (raw : List Nat) : Option HWNPFirmware :=
  if bslice raw 0 4 ≠ hwnpMagic then none
  else if raw.length < 32 then none
  else
    let item_num := le32 (bslice raw 20 4) &&& 255
    match parseSections raw item_num 0 (296 + item_num * 360) with
    | none => none
    | some secs =>
      some
        { raw := raw
          payload_size := be32 (bslice raw 4 4)
          head_crc := le32 (bslice raw 8 4)
          head_len := le32 (bslice raw 12 4)
          file_crc := le32 (bslice raw 16 4)
          item_num := item_num
          version := le32 (bslice raw 24 4)
          item_desc_size := le32 (bslice raw 28 4)
          product_ids := decodeProductIds raw
          computed_crc := crc32 (raw.drop 12)
          crc_valid := crc32 (raw.drop 12) == le32 (bslice raw 8 4)
          sections := secs }

/-! Mutation operations. -/

inductive EditorError where
  | formatError | capacityError | sizeError | indexError | encodeError
deriving DecidableEq

inductive EditResult (α : Type) where
  | ok : α → EditResult α
  | error : EditorError → EditResult α
deriving DecidableEq

/-- `HWNPFirmware.set_product_ids` (lines 167-175): encode the joined ID
string (ASCII encoding fails on a non-ASCII character), check the 260-byte
capacity, zero-fill the window, write the encoded bytes. -/
def set_product_ids (fw : HWNPFirmware) (ids : List (List Nat)) :
    EditResult HWNPFirmware :=
  let pidBytes := joinPids ids ++ [124]
  if !pidBytes.all (fun c => c < 128) then .error .encodeError
  else if 260 < pidBytes.length then .error .capacityError
  else
    let raw1 := setSlice fw.raw 36 (List.replicate 260 0)
    .ok { fw with raw := setSlice raw1 36 pidBytes, product_ids := ids }

/-- `HWNPFirmware.set_section_data` (lines 177-195): index the section
(IndexError when out of range), zero-pad a short replacement, reject an
oversized one, write the bytes in place and refresh the text view of a
text-like section (a failed decode is tolerated). -/
def set_section_data (fw : HWNPFirmware) (idx : Nat) (newData : List Nat) :
    EditResult HWNPFirmware :=
  match fw.sections[idx]? with
  | none => .error .indexError
  | some sec =>
    if sec.data_size < newData.length then .error .sizeError
    else
      let padded := newData ++ List.replicate (sec.data_size - newData.length) 0
      let newText :=
        match sec.content_type with
        | .xml | .shell | .text =>
          match utf8Decode padded with
          | some t => some t
          | none => sec.text_content
        | _ => sec.text_content
      .ok { fw with
              raw := setSlice fw.raw sec.data_offset padded
              sections := fw.sections.set idx { sec with data := padded, text_content := newText } }

/-! The signinfo patcher (`fix_signinfo`). The hash lines are found with
`re.finditer(r"([0-9a-f]{64})\s+(/[^\n]+)", sig_text)`: at each candidate
position the engine requires exactly 64 lowercase-hex characters, one or
more whitespace characters, then a slash followed by at least one
non-newline character (greedy to the end of the line); the scan resumes
after each match. -/

structure SigMatch where
  hexStart : Nat
  matchEnd : Nat
  pathStripped : List Nat
deriving DecidableEq

/-- Try to match the hash-line pattern at position `p` of the decoded text.
`pathStripped` is `m.group(2).strip()`. -/
def matchAt (t : List Nat) (p : Nat) : Option SigMatch :=
  let hexPart := bslice t p 64
  if hexPart.length == 64 && hexPart.all isHexLower then
    let ws := ((t.drop (p + 64)).takeWhile isSpace).length
    if ws == 0 then none
    else
      let j := p + 64 + ws
      if t.getD j 0 == 47 then
        let rest := (t.drop (j + 1)).takeWhile (fun c => c != 10)
        if rest.isEmpty then none
        else some ⟨p, j + 1 + rest.length, stripWs (47 :: rest)⟩
      else none
  else none

def findMatchesAux (t : List Nat) : Nat → Nat → List SigMatch
  | _, 0 => []
  | p, fuel + 1 =>
    if t.length ≤ p then []
    else
      match matchAt t p with
      | some m => m :: findMatchesAux t m.matchEnd fuel
      | none => findMatchesAux t (p + 1) fuel

/-- All matches of the hash-line pattern, leftmost first, non-overlapping. -/
def findMatches (t : List Nat) : List SigMatch := findMatchesAux t 0 (t.length + 1)

def signinfoMarker : List Nat := [115, 105, 103, 110, 105, 110, 102, 111]

/-- First section whose path contains `"signinfo"`, with its index
(the loop plus `break` of `fix_signinfo`). -/
def findSigIdx : List HWNPSection → Nat → Option (Nat × HWNPSection)
  | [], _ => none
  | s :: rest, i =>
    if containsSub signinfoMarker s.path then some (i, s) else findSigIdx rest (i + 1)

/-- First section whose scheme-stripped path equals the match's path
(the inner loop plus `break`). -/
def findHashTarget (sections : List HWNPSection) (m : SigMatch) : Option HWNPSection :=
  sections.find? (fun sec => replaceFile sec.path == m.pathStripped)

/-- Process one hash-line match: when a section matches the path, hash that
section's current buffer bytes and overwrite the 64 hex characters. -/
def applyHashMatch (sections : List HWNPSection) (sigOff : Nat) (raw : List Nat)
    (m : SigMatch) : List Nat :=
  match findHashTarget sections m with
  | none => raw
  | some sec =>
      setSlice raw (sigOff + m.hexStart)
        (sha256HexCodes (bslice raw sec.data_offset sec.data_size))

/-- Zero the first 60 bytes at the signinfo section's offset. -/
def sigZeroed (raw : List Nat) (sigOff : Nat) : List Nat :=
  setSlice raw sigOff (List.replicate 60 0)

/-- The manifest text scanned for hash lines: the signinfo payload after
zeroing, ASCII-decoded with replacement. -/
def sigTextOf (raw : List Nat) (sigOff sigSize : Nat) : List Nat :=
  decodeAsciiReplace (bslice raw sigOff sigSize)

/-- `HWNPFirmware.fix_signinfo` (lines 197-232). -/
def fix_signinfo (fw : HWNPFirmware) : HWNPFirmware :=
  match findSigIdx fw.sections 0 with
  | none => fw
  | some (k, sec) =>
    let sigOff := sec.data_offset
    let sigSize := sec.data_size
    let raw0 := sigZeroed fw.raw sigOff
    let ms := findMatches (sigTextOf raw0 sigOff sigSize)
    let raw1 := ms.foldl (applyHashMatch fw.sections sigOff) raw0
    { fw with
        raw := raw1
        sections := fw.sections.set k { sec with data := bslice raw1 sigOff sigSize } }

/-- `HWNPFirmware.recalculate_crc` (lines 234-240). -/
def recalculate_crc (fw : HWNPFirmware) : HWNPFirmware :=
  let c := crc32 (fw.raw.drop 12)
  { fw with
      raw := setSlice fw.raw 8 (le32Of c)
      head_crc := c
      computed_crc := c
      crc_valid := true }

/-- `HWNPFirmware.save` (lines 242-247): always patch the signinfo section,
then recompute the header CRC; the bytes written to disk are `raw`. -/
def save (fw : HWNPFirmware) : HWNPFirmware := recalculate_crc (fix_signinfo fw)

/-! Derived notions used in the statements below. -/

/-- `roundUp4 n` is `n` plus the padding that rounds a 4-aligned start plus
`n` up to the next multiple of 4. -/
def roundUp4 (n : Nat) : Nat := n + (4 - n % 4) % 4

/-- Sum of padded sizes of a list of sections. -/
def padSum (l : List HWNPSection) : Nat := (l.map (fun s => roundUp4 s.data_size)).sum

/-- The structural projection of a section: computed data offset and size. -/
def sectProj (s : HWNPSection) : Nat × Nat := (s.data_offset, s.data_size)

/-! Concrete images used as witnesses and counterexamples. -/

/-- A minimal header-only image: magic plus 28 zero bytes, zero sections. -/
def wbufA : List Nat := hwnpMagic ++ List.replicate 28 0

/-- An image with one 4-byte binary section (empty path and label). -/
def wbufB : List Nat :=
  hwnpMagic ++ List.replicate 16 0 ++ [1, 0, 0, 0] ++ List.replicate 272 0 ++
    ([0, 0, 0, 0] ++ [0, 0, 0, 0] ++ [4, 0, 0, 0] ++ List.replicate 348 0) ++ [1, 2, 3, 4]

/-- A header-plus-window image (0x128 bytes), zero sections. -/
def wbufC : List Nat := hwnpMagic ++ List.replicate 292 0

/-- An image with one section whose path is `a.xml` and whose 5-byte payload
is not valid UTF-8. -/
def wbufD : List Nat :=
  hwnpMagic ++ List.replicate 16 0 ++ [1, 0, 0, 0] ++ List.replicate 272 0 ++
    ([0, 0, 0, 0] ++ [0, 0, 0, 0] ++ [5, 0, 0, 0] ++
      ([97, 46, 120, 109, 108] ++ List.replicate 343 0)) ++ List.replicate 5 255

/-- An image with one section whose path is `/signinfo` and whose 134-byte
payload is a 60-byte header followed by a manifest line
`"0" * 64 ++ " " ++ "/signinfo"` referring to the section itself. -/
def cbufSelf : List Nat :=
  hwnpMagic ++ List.replicate 16 0 ++ [1, 0, 0, 0] ++ List.replicate 272 0 ++
    ([0, 0, 0, 0] ++ [0, 0, 0, 0] ++ [134, 0, 0, 0] ++
      ([47, 115, 105, 103, 110, 105, 110, 102, 111] ++ List.replicate 339 0)) ++
    (List.replicate 60 0 ++ List.replicate 64 48 ++
      (32 :: [47, 115, 105, 103, 110, 105, 110, 102, 111]))

def wfwA : HWNPFirmware := (parse wbufA).getD dFirmware

def wfwB : HWNPFirmware := (parse wbufB).getD dFirmware

def wfwC : HWNPFirmware := (parse wbufC).getD dFirmware

def wfwD : HWNPFirmware := (parse wbufD).getD dFirmware

def cfwSelf : HWNPFirmware := (parse cbufSelf).getD dFirmware

/-- The firmware produced by `set_product_ids wfwC [[]]` (used as a
concrete counterexample input). -/
def c5out : EditResult HWNPFirmware := set_product_ids wfwC [[]]

def c5fw : HWNPFirmware :=
  match c5out with
  | .ok fw => fw
  | .error _ => dFirmware

/-- Invariant of the hash-line scan: starting from position `p`, the listed
matches are in order, each covering 64 in-range hex characters, with each
match beginning no earlier than the previous match's end. -/
def Chain (t : List Nat) : Nat → List SigMatch → Prop
  | _, [] => True
  | p, m :: ms =>
    p ≤ m.hexStart ∧ m.hexStart + 64 ≤ m.matchEnd ∧ m.matchEnd ≤ t.length ∧
      (∀ q, m.hexStart ≤ q → q < m.hexStart + 64 → isHexLower (t.getD q 0) = true) ∧
      Chain t m.matchEnd ms

/-! Basic lemmas about `getD`, `bslice` and `setSlice`. -/

theorem getD_oob {l : List Nat} {p : Nat} (h : l.length ≤ p) : l.getD p 0 = 0 := by
  rw [List.getD_eq_getElem?_getD, List.getElem?_eq_none h]
  rfl

theorem getD_drop (l : List Nat) (a i : Nat) : (l.drop a).getD i 0 = l.getD (a + i) 0 := by
  rw [List.getD_eq_getElem?_getD, List.getD_eq_getElem?_getD, List.getElem?_drop]

theorem getD_take (l : List Nat) (n i : Nat) :
    (l.take n).getD i 0 = if i < n then l.getD i 0 else 0 := by
  rw [List.getD_eq_getElem?_getD, List.getElem?_take]
  split
  · rw [List.getD_eq_getElem?_getD]
  · rfl

theorem getD_bslice (l : List Nat) (a n i : Nat) :
    (bslice l a n).getD i 0 = if i < n then l.getD (a + i) 0 else 0 := by
  rw [bslice, getD_take, getD_drop]

theorem length_bslice (l : List Nat) (a n : Nat) :
    (bslice l a n).length = min n (l.length - a) := by
  simp [bslice]

theorem length_bslice_of_le {l : List Nat} {a n : Nat} (h : a + n ≤ l.length) :
    (bslice l a n).length = n := by
  rw [length_bslice]
  omega

theorem length_setSlice_ge (l v : List Nat) (a : Nat) :
    l.length ≤ (setSlice l a v).length := by
  simp [setSlice]
  omega

theorem length_setSlice {l v : List Nat} {a : Nat} (h : a + v.length ≤ l.length) :
    (setSlice l a v).length = l.length := by
  simp [setSlice]
  omega

theorem getD_append_disc (x y : List Nat) (p : Nat) :
    (x ++ y).getD p 0 = if p < x.length then x.getD p 0 else y.getD (p - x.length) 0 := by
  rw [List.getD_eq_getElem?_getD, List.getElem?_append]
  split
  · rw [List.getD_eq_getElem?_getD]
  · rw [List.getD_eq_getElem?_getD]

theorem getD_setSlice_low {l v : List Nat} {a p : Nat} (hp : p < a) (hl : p < l.length) :
    (setSlice l a v).getD p 0 = l.getD p 0 := by
  rw [setSlice, List.append_assoc, getD_append_disc]
  have hlen : (l.take a).length = min a l.length := by simp
  rw [if_pos (by omega), getD_take, if_pos hp]

theorem getD_setSlice {l v : List Nat} {a : Nat} (h : a + v.length ≤ l.length) (p : Nat) :
    (setSlice l a v).getD p 0 =
      if p < a then l.getD p 0
      else if p < a + v.length then v.getD (p - a) 0
      else l.getD p 0 := by
  have hta : (l.take a).length = a := by simp; omega
  rw [setSlice, List.append_assoc, getD_append_disc, hta]
  split
  · rw [getD_take, if_pos (by omega)]
  · rw [getD_append_disc]
    split
    · rw [if_pos (by omega)]
    · rw [if_neg (by omega), getD_drop]
      congr 1
      omega

theorem list_ext_getD {l l' : List Nat} (hl : l.length = l'.length)
    (h : ∀ p, l.getD p 0 = l'.getD p 0) : l = l' := by
  apply List.ext_getElem hl
  intro i h1 h2
  have := h i
  rwa [List.getD_eq_getElem l 0 h1, List.getD_eq_getElem l' 0 h2] at this

theorem bslice_ext {l l' : List Nat} {a n : Nat}
    (hl : (bslice l a n).length = (bslice l' a n).length)
    (h : ∀ p, a ≤ p → p < a + n → l.getD p 0 = l'.getD p 0) :
    bslice l a n = bslice l' a n := by
  apply list_ext_getD hl
  intro i
  rw [getD_bslice, getD_bslice]
  split
  · exact h (a + i) (by omega) (by omega)
  · rfl

theorem bslice_setSlice_self {l v : List Nat} {a : Nat} (h : a + v.length ≤ l.length) :
    bslice (setSlice l a v) a v.length = v := by
  apply list_ext_getD
  · rw [length_bslice, length_setSlice h]
    omega
  · intro i
    rw [getD_bslice]
    split
    · rw [getD_setSlice h, if_neg (by omega), if_pos (by omega)]
      congr 1
      omega
    · exact (getD_oob (by omega)).symm

theorem bslice_setSlice_left {l v : List Nat} {a b n : Nat}
    (hd : b + n ≤ a) (hb : b + n ≤ l.length) :
    bslice (setSlice l a v) b n = bslice l b n := by
  apply bslice_ext
  · rw [length_bslice, length_bslice]
    have := length_setSlice_ge l v a
    omega
  · intro p h1 h2
    exact getD_setSlice_low (by omega) (by omega)

theorem bslice_setSlice_right {l v : List Nat} {a b n : Nat}
    (hd : a + v.length ≤ b) (hin : a + v.length ≤ l.length) :
    bslice (setSlice l a v) b n = bslice l b n := by
  apply bslice_ext
  · rw [length_bslice, length_bslice, length_setSlice hin]
  · intro p h1 h2
    rw [getD_setSlice hin, if_neg (by omega), if_neg (by omega)]

theorem drop_setSlice {l v : List Nat} {a b : Nat}
    (hd : a + v.length ≤ b) (hin : a + v.length ≤ l.length) :
    (setSlice l a v).drop b = l.drop b := by
  apply list_ext_getD
  · simp [length_setSlice hin]
  · intro i
    rw [getD_drop, getD_drop, getD_setSlice hin, if_neg (by omega), if_neg (by omega)]

theorem take_setSlice {l v : List Nat} {a b : Nat} (hd : b ≤ a) (hb : b ≤ l.length) :
    (setSlice l a v).take b = l.take b := by
  apply list_ext_getD
  · have := length_setSlice_ge l v a
    simp
    omega
  · intro i
    rw [getD_take, getD_take]
    split
    · exact getD_setSlice_low (by omega) (by omega)
    · rfl

/-! Arithmetic and nesting lemmas. -/

theorem crc32_lt (data : List Nat) : crc32 data < 4294967296 := by
  rw [crc32, Nat.and_pow_two_sub_one_eq_mod _ 32]
  exact Nat.mod_lt _ (by norm_num)

theorem le32_le32Of (n : Nat) : le32 (le32Of n) = n % 4294967296 := by
  simp only [le32, le32Of, List.getD_cons_zero, List.getD_cons_succ]
  omega

theorem bslice_bslice {l : List Nat} {a n b m : Nat} (h : b + m ≤ n) :
    bslice (bslice l a n) b m = bslice l (a + b) m := by
  apply list_ext_getD
  · rw [length_bslice, length_bslice, length_bslice]
    omega
  · intro i
    rw [getD_bslice, getD_bslice, getD_bslice]
    split
    · rw [if_pos (by omega), Nat.add_assoc]
    · rfl

/-! Inversion lemmas for `parse` and `parseSections`. -/

theorem parse_inv {raw : List Nat} {fw : HWNPFirmware} (h : parse raw = some fw) :
    fw.raw = raw ∧ 32 ≤ raw.length ∧ bslice raw 0 4 = hwnpMagic ∧
    fw.item_num = le32 (bslice raw 20 4) &&& 255 ∧
    parseSections raw fw.item_num 0 (296 + fw.item_num * 360) = some fw.sections := by
  simp only [parse] at h
  split at h
  · exact absurd h (by simp)
  · split at h
    · exact absurd h (by simp)
    · rename_i hmagic hlen
      split at h
      · exact absurd h (by simp)
      · rename_i secs hsecs
        rw [Option.some_inj] at h
        subst h
        refine ⟨rfl, by omega, not_ne_iff.mp hmagic, rfl, hsecs⟩

/-- Recover a `parse` equation from a cheap success check. -/
theorem parse_getD_some {raw : List Nat} (h : (parse raw).isSome = true) :
    parse raw = some ((parse raw).getD dFirmware) := by
  cases hp : parse raw
  · rw [hp] at h
    simp at h
  · rfl

theorem parseSections_length {raw : List Nat} {k i off : Nat} {secs : List HWNPSection}
    (h : parseSections raw k i off = some secs) : secs.length = k := by
  induction k generalizing i off secs with
  | zero =>
    simp only [parseSections, Option.some_inj] at h
    simp [← h]
  | succ k ih =>
    simp only [parseSections] at h
    split at h
    · exact absurd h (by simp)
    · split at h
      · exact absurd h (by simp)
      · rename_i rest hrest
        rw [Option.some_inj] at h
        subst h
        simp [ih hrest]

theorem parseSections_guard {raw : List Nat} {k i off : Nat} {secs : List HWNPSection}
    (h : parseSections raw k i off = some secs) :
    ∀ j, j < k → descOff (i + j) + 12 ≤ raw.length := by
  induction k generalizing i off secs with
  | zero => omega
  | succ k ih =>
    simp only [parseSections] at h
    split at h
    · exact absurd h (by simp)
    · split at h
      · exact absurd h (by simp)
      · rename_i hlen rest hrest
        intro j hj
        match j with
        | 0 =>
          simp only [Nat.add_zero]
          omega
        | j + 1 =>
          have h1 := ih hrest j (by omega)
          have h2 : descOff (i + 1 + j) = descOff (i + (j + 1)) := by
            simp only [descOff]
            ring
          omega

theorem parseSections_mem {raw : List Nat} {k i off : Nat} {secs : List HWNPSection}
    (h : parseSections raw k i off = some secs) :
    ∀ s ∈ secs, ∃ i0 off0 pl, s = mkSection i0 off0 (bslice raw (descOff i0) 360) pl := by
  induction k generalizing i off secs with
  | zero =>
    simp only [parseSections, Option.some_inj] at h
    subst h
    simp
  | succ k ih =>
    simp only [parseSections] at h
    split at h
    · exact absurd h (by simp)
    · split at h
      · exact absurd h (by simp)
      · rename_i rest hrest
        rw [Option.some_inj] at h
        subst h
        intro s hs
        rcases List.mem_cons.mp hs with hhead | htail
        · exact ⟨i, off, _, hhead⟩
        · exact ih hrest s htail

theorem section_classify {raw : List Nat} {fw : HWNPFirmware} (h : parse raw = some fw)
    {s : HWNPSection} (hs : s ∈ fw.sections) :
    s.content_type = (classifyContent (replaceFile s.path) s.data s.data_size).1 ∧
    s.text_content = (classifyContent (replaceFile s.path) s.data s.data_size).2 := by
  obtain ⟨i0, off0, pl, rfl⟩ := parseSections_mem (parse_inv h).2.2.2.2 s hs
  exact ⟨rfl, rfl⟩

theorem nextOffset_align {off size : Nat} (h : off % 4 = 0) :
    nextOffset off size = off + roundUp4 size := by
  simp only [nextOffset, roundUp4]
  split <;> omega

theorem nextOffset_mod {off size : Nat} (h : off % 4 = 0) :
    nextOffset off size % 4 = 0 := by
  simp only [nextOffset]
  split <;> omega

theorem nextOffset_ge (off size : Nat) : off + size ≤ nextOffset off size := by
  simp only [nextOffset]
  split <;> omega

theorem parseSections_offset_ge {raw : List Nat} {k i off : Nat} {secs : List HWNPSection}
    (h : parseSections raw k i off = some secs) :
    ∀ s ∈ secs, off ≤ s.data_offset := by
  induction k generalizing i off secs with
  | zero =>
    simp only [parseSections, Option.some_inj] at h
    subst h
    simp
  | succ k ih =>
    simp only [parseSections] at h
    split at h
    · exact absurd h (by simp)
    · split at h
      · exact absurd h (by simp)
      · rename_i rest hrest
        rw [Option.some_inj] at h
        subst h
        intro s hs
        rcases List.mem_cons.mp hs with hhead | htail
        · subst hhead
          exact Nat.le_refl _
        · have h1 := ih hrest s htail
          have h2 := nextOffset_ge off (le32 (bslice (bslice raw (descOff i) 360) 8 4))
          omega

theorem parseSections_offsets {raw : List Nat} {k i off : Nat} {secs : List HWNPSection}
    (h : parseSections raw k i off = some secs) (hal : off % 4 = 0) :
    ∀ j, j < secs.length → (secs.getD j dSection).data_offset = off + padSum (secs.take j) := by
  induction k generalizing i off secs with
  | zero =>
    have hlen := parseSections_length h
    intro j hj
    omega
  | succ k ih =>
    simp only [parseSections] at h
    split at h
    · exact absurd h (by simp)
    · split at h
      · exact absurd h (by simp)
      · rename_i rest hrest
        rw [Option.some_inj] at h
        subst h
        intro j hj
        match j with
        | 0 =>
          simp [padSum, mkSection]
        | j + 1 =>
          have hal2 : nextOffset off (le32 (bslice (bslice raw (descOff i) 360) 8 4)) % 4 = 0 :=
            nextOffset_mod hal
          have hih := ih hrest hal2 j (by simpa using Nat.lt_of_succ_lt_succ hj)
          rw [nextOffset_align hal] at hih
          simp only [List.getD_cons_succ, List.take_succ_cons, padSum, List.map_cons,
            List.sum_cons, mkSection] at hih ⊢
          omega

/-! Frame lemmas for the save pipeline. -/

theorem findSigIdx_mem {l : List HWNPSection} {i k : Nat} {sec : HWNPSection}
    (h : findSigIdx l i = some (k, sec)) : sec ∈ l := by
  induction l generalizing i with
  | nil => simp [findSigIdx] at h
  | cons s rest ih =>
    simp only [findSigIdx] at h
    split at h
    · rw [Option.some_inj, Prod.mk.injEq] at h
      rw [← h.2]
      exact List.mem_cons_self s rest
    · exact List.mem_cons_of_mem s (ih h)

theorem length_applyHashMatch_ge (ss : List HWNPSection) (sigOff : Nat) (raw : List Nat)
    (m : SigMatch) : raw.length ≤ (applyHashMatch ss sigOff raw m).length := by
  unfold applyHashMatch
  split
  · exact Nat.le_refl _
  · exact length_setSlice_ge _ _ _

theorem length_foldl_apply_ge (ss : List HWNPSection) (sigOff : Nat) (ms : List SigMatch) :
    ∀ raw : List Nat, raw.length ≤ (ms.foldl (applyHashMatch ss sigOff) raw).length := by
  induction ms with
  | nil => exact fun raw => Nat.le_refl _
  | cons m rest ih =>
    intro raw
    exact le_trans (length_applyHashMatch_ge ss sigOff raw m) (ih _)

theorem getD_applyHashMatch_low {ss : List HWNPSection} {sigOff : Nat} {raw : List Nat}
    {m : SigMatch} {p : Nat} (hp : p < sigOff) (hl : p < raw.length) :
    (applyHashMatch ss sigOff raw m).getD p 0 = raw.getD p 0 := by
  unfold applyHashMatch
  split
  · rfl
  · exact getD_setSlice_low (by omega) hl

theorem getD_foldl_apply_low {ss : List HWNPSection} {sigOff : Nat} {ms : List SigMatch} :
    ∀ {raw : List Nat} {p : Nat}, p < sigOff → p < raw.length →
      (ms.foldl (applyHashMatch ss sigOff) raw).getD p 0 = raw.getD p 0 := by
  induction ms with
  | nil => exact fun _ _ => rfl
  | cons m rest ih =>
    intro raw p hp hl
    have h1 : p < (applyHashMatch ss sigOff raw m).length :=
      lt_of_lt_of_le hl (length_applyHashMatch_ge ss sigOff raw m)
    rw [List.foldl_cons, ih hp h1, getD_applyHashMatch_low hp hl]

theorem fix_signinfo_length_ge (fw : HWNPFirmware) :
    fw.raw.length ≤ (fix_signinfo fw).raw.length := by
  unfold fix_signinfo
  split
  · exact Nat.le_refl _
  · exact le_trans (length_setSlice_ge _ _ _) (length_foldl_apply_ge _ _ _ _)

/-- Any byte strictly below the descriptor-table end (and in range) is
unchanged by `fix_signinfo` on a parsed image. -/
theorem fix_signinfo_frame {raw : List Nat} {fw : HWNPFirmware} (h : parse raw = some fw)
    {p : Nat} (hp : p < 296 + fw.item_num * 360) (hl : p < fw.raw.length) :
    (fix_signinfo fw).raw.getD p 0 = fw.raw.getD p 0 := by
  unfold fix_signinfo
  split
  · rfl
  · rename_i k sec hsig
    have hmem : sec ∈ fw.sections := findSigIdx_mem hsig
    have hoff : 296 + fw.item_num * 360 ≤ sec.data_offset :=
      parseSections_offset_ge (parse_inv h).2.2.2.2 sec hmem
    have hz : p < (sigZeroed fw.raw sec.data_offset).length :=
      lt_of_lt_of_le hl (length_setSlice_ge _ _ _)
    simp only
    rw [getD_foldl_apply_low (by omega) hz]
    exact getD_setSlice_low (by omega) hl

/-- C1: for every parsed image, after `save` the stored header checksum at
offset 0x08 equals the CRC-32 (standard polynomial) of the final buffer from
offset 0x0C to end-of-buffer — computed after the manifest patch, stored
little-endian — and the image's checksum validity flag is true. -/
theorem c1_save_checksum (raw : List Nat) (fw : HWNPFirmware) (h : parse raw = some fw) :
    readLE32 (save fw).raw 8 = crc32 ((save fw).raw.drop 12) ∧
    (save fw).head_crc = crc32 ((save fw).raw.drop 12) ∧
    (save fw).crc_valid = true := by
  obtain ⟨hraw, hlen, -, -, -⟩ := parse_inv h
  have hl2 : 32 ≤ fw.raw.length := by rw [hraw]; exact hlen
  have h12 : 12 ≤ (fix_signinfo fw).raw.length := by
    have := fix_signinfo_length_ge fw
    omega
  have hc : crc32 ((save fw).raw.drop 12) = crc32 ((fix_signinfo fw).raw.drop 12) := by
    show crc32 ((setSlice (fix_signinfo fw).raw 8 _).drop 12) = _
    rw [drop_setSlice (by simp [le32Of]) (by simp [le32Of]; omega)]
  refine ⟨?_, ?_, rfl⟩
  · rw [hc]
    show readLE32 (setSlice (fix_signinfo fw).raw 8
      (le32Of (crc32 ((fix_signinfo fw).raw.drop 12)))) 8 = _
    rw [readLE32]
    have h4 : (le32Of (crc32 ((fix_signinfo fw).raw.drop 12))).length = 4 := by
      simp [le32Of]
    rw [show (4 : Nat) = (le32Of (crc32 ((fix_signinfo fw).raw.drop 12))).length from h4.symm]
    rw [bslice_setSlice_self (by rw [h4]; omega)]
    rw [le32_le32Of]
    exact Nat.mod_eq_of_lt (crc32_lt _)
  · rw [hc]
    rfl

set_option maxRecDepth 100000 in
/-- Witness for C1 at the concrete image `wbufA`. -/
theorem c1_save_checksum_witness :
    readLE32 (save wfwA).raw 8 = crc32 ((save wfwA).raw.drop 12) ∧
    (save wfwA).head_crc = crc32 ((save wfwA).raw.drop 12) ∧
    (save wfwA).crc_valid = true :=
  c1_save_checksum wbufA wfwA (parse_getD_some (by rfl))

/-- C9: for every parsed image, a section whose (scheme-stripped) path has
neither the shell nor the XML extension and whose `data_size` is at most 4
is classified `flag`, and its text view is its payload rendered as
space-separated `0x`-prefixed two-digit uppercase hex byte values, with no
decode attempt. -/
theorem c9_flag_render (raw : List Nat) (fw : HWNPFirmware) (h : parse raw = some fw)
    (s : HWNPSection) (hs : s ∈ fw.sections)
    (hsh : listEndsWith (replaceFile s.path) shExt = false)
    (hxml : listEndsWith (replaceFile s.path) xmlExt = false)
    (hsz : s.data_size ≤ 4) :
    s.content_type = ContentType.flag ∧ s.text_content = some (hexRender s.data) := by
  obtain ⟨hct, htc⟩ := section_classify h hs
  rw [hct, htc]
  simp [classifyContent, hsh, hxml, hsz]

set_option maxRecDepth 100000 in
/-- Witness for C9 at the concrete image `wbufB`. -/
theorem c9_flag_render_witness :
    (wfwB.sections.getD 0 dSection).content_type = ContentType.flag ∧
    (wfwB.sections.getD 0 dSection).text_content =
      some (hexRender (wfwB.sections.getD 0 dSection).data) :=
  c9_flag_render wbufB wfwB (parse_getD_some (by rfl)) (wfwB.sections.getD 0 dSection)
    (by decide) (by decide) (by decide) (by decide)

theorem xml_not_sh {l : List Nat} (h : listEndsWith l xmlExt = true) :
    listEndsWith l shExt = false := by
  have h4 : l.drop (l.length - 4) = [46, 120, 109, 108] := by
    simp only [listEndsWith, xmlExt, beq_iff_eq] at h
    simpa using h
  have hlen : 4 ≤ l.length := by
    have hc := congrArg List.length h4
    simp at hc
    omega
  have h3 : l.drop (l.length - 3) = [120, 109, 108] := by
    have h1 : l.length - 3 = (l.length - 4) + 1 := by omega
    rw [h1, ← List.drop_drop, h4]
    rfl
  have hgoal : listEndsWith l shExt = (l.drop (l.length - 3) == [46, 115, 104]) := rfl
  rw [hgoal, h3]
  decide

set_option maxRecDepth 100000 in
/-- C8 counterexample: in the parsed image `wbufD`, the single section's
path ends with `.xml` and its payload is not valid UTF-8, yet its
classification is not `xml` (the code reclassifies it as `binary`). -/
theorem c8_xml_invalid_counterexample :
    parse wbufD = some wfwD ∧
    listEndsWith (replaceFile (wfwD.sections.getD 0 dSection).path) xmlExt = true ∧
    utf8Decode (wfwD.sections.getD 0 dSection).data = none ∧
    (wfwD.sections.getD 0 dSection).content_type ≠ ContentType.xml := by
  refine ⟨parse_getD_some (by rfl), by decide, by decide, by decide⟩

/-- C8 as amended: a section whose scheme-stripped path ends with the XML
extension but whose payload is not valid UTF-8 is reclassified as `binary`
and exposes no decoded text view. -/
theorem c8_xml_invalid_utf8 (raw : List Nat) (fw : HWNPFirmware) (h : parse raw = some fw)
    (s : HWNPSection) (hs : s ∈ fw.sections)
    (hxml : listEndsWith (replaceFile s.path) xmlExt = true)
    (hdec : utf8Decode s.data = none) :
    s.content_type = ContentType.binary ∧ s.text_content = none := by
  obtain ⟨hct, htc⟩ := section_classify h hs
  rw [hct, htc]
  simp [classifyContent, xml_not_sh hxml, hxml, hdec]

set_option maxRecDepth 100000 in
/-- Witness for the amended C8 at the concrete image `wbufD`. -/
theorem c8_xml_invalid_utf8_witness :
    (wfwD.sections.getD 0 dSection).content_type = ContentType.binary ∧
    (wfwD.sections.getD 0 dSection).text_content = none :=
  c8_xml_invalid_utf8 wbufD wfwD (parse_getD_some (by rfl)) (wfwD.sections.getD 0 dSection)
    (by decide) (by decide) (by decide)

/-- C7: replacing a section's payload with strictly more bytes than its
`data_size` fails with the size error; in this pure model the error result
carries no firmware value, mirroring that the method raises before any
mutation. -/
theorem c7_oversize_rejected (fw : HWNPFirmware) (idx : Nat) (b : List Nat)
    (hidx : idx < fw.sections.length)
    (hlen : (fw.sections.getD idx dSection).data_size < b.length) :
    set_section_data fw idx b = EditResult.error EditorError.sizeError := by
  have hg : fw.sections.getD idx dSection = fw.sections[idx] :=
    List.getD_eq_getElem _ _ hidx
  unfold set_section_data
  rw [List.getElem?_eq_getElem hidx]
  simp only
  rw [if_pos (by rw [← hg]; exact hlen)]

set_option maxRecDepth 100000 in
/-- Witness for C7 at the concrete image `wbufB` (5 bytes into a 4-byte
section). -/
theorem c7_oversize_rejected_witness :
    set_section_data wfwB 0 [1, 2, 3, 4, 5] = EditResult.error EditorError.sizeError :=
  c7_oversize_rejected wfwB 0 [1, 2, 3, 4, 5] (by decide) (by decide)

/-- C6: replacing section `idx`'s payload with at most `data_size` bytes
succeeds; the stored payload is the input right-padded with zeros to exactly
`data_size` bytes; every other section is unchanged, and the buffer outside
the section's slot is unchanged. -/
theorem c6_set_payload (fw : HWNPFirmware) (idx : Nat) (b : List Nat)
    (hidx : idx < fw.sections.length)
    (hb : b.length ≤ (fw.sections.getD idx dSection).data_size)
    (hin : (fw.sections.getD idx dSection).data_offset +
      (fw.sections.getD idx dSection).data_size ≤ fw.raw.length) :
    ∃ fw', set_section_data fw idx b = EditResult.ok fw' ∧
      fw'.sections.length = fw.sections.length ∧
      (fw'.sections.getD idx dSection).data =
        b ++ List.replicate ((fw.sections.getD idx dSection).data_size - b.length) 0 ∧
      (fw'.sections.getD idx dSection).data.length =
        (fw.sections.getD idx dSection).data_size ∧
      (∀ j, j ≠ idx → fw'.sections.getD j dSection = fw.sections.getD j dSection) ∧
      fw'.raw.take (fw.sections.getD idx dSection).data_offset =
        fw.raw.take (fw.sections.getD idx dSection).data_offset ∧
      fw'.raw.drop ((fw.sections.getD idx dSection).data_offset +
          (fw.sections.getD idx dSection).data_size) =
        fw.raw.drop ((fw.sections.getD idx dSection).data_offset +
          (fw.sections.getD idx dSection).data_size) ∧
      bslice fw'.raw (fw.sections.getD idx dSection).data_offset
          (fw.sections.getD idx dSection).data_size =
        b ++ List.replicate ((fw.sections.getD idx dSection).data_size - b.length) 0 := by
  have hg : fw.sections.getD idx dSection = fw.sections[idx] :=
    List.getD_eq_getElem _ _ hidx
  have hsec : fw.sections[idx]? = some (fw.sections.getD idx dSection) := by
    rw [List.getElem?_eq_getElem hidx, ← hg]
  have hpadlen : (b ++ List.replicate ((fw.sections.getD idx dSection).data_size - b.length)
      0).length = (fw.sections.getD idx dSection).data_size := by
    simp only [List.length_append, List.length_replicate]
    omega
  unfold set_section_data
  rw [hsec]
  simp only
  rw [if_neg (by omega)]
  refine ⟨_, rfl, by simp, ?_, ?_, ?_, ?_, ?_, ?_⟩
  · show (((fw.sections.set idx _).getD idx dSection)).data = _
    rw [List.getD_eq_getElem?_getD, List.getElem?_set_self (by omega), Option.getD_some]
  · show (((fw.sections.set idx _).getD idx dSection)).data.length = _
    rw [List.getD_eq_getElem?_getD, List.getElem?_set_self (by omega), Option.getD_some]
    exact hpadlen
  · intro j hj
    show ((fw.sections.set idx _).getD j dSection) = _
    rw [List.getD_eq_getElem?_getD, List.getElem?_set_ne (by omega),
      ← List.getD_eq_getElem?_getD]
  · exact take_setSlice (Nat.le_refl _) (by omega)
  · apply drop_setSlice
    · rw [hpadlen]
    · rw [hpadlen]
      exact hin
  · have hself : bslice
        (setSlice fw.raw (fw.sections.getD idx dSection).data_offset
          (b ++ List.replicate ((fw.sections.getD idx dSection).data_size - b.length) 0))
        (fw.sections.getD idx dSection).data_offset
        (b ++ List.replicate ((fw.sections.getD idx dSection).data_size - b.length) 0).length =
        b ++ List.replicate ((fw.sections.getD idx dSection).data_size - b.length) 0 :=
      bslice_setSlice_self (by rw [hpadlen]; exact hin)
    rw [hpadlen] at hself
    exact hself

set_option maxRecDepth 100000 in
/-- Witness for C6 at the concrete image `wbufB` (1 byte into a 4-byte
section, zero-padded). -/
theorem c6_set_payload_witness :
    ∃ fw', set_section_data wfwB 0 [9] = EditResult.ok fw' ∧
      fw'.sections.length = wfwB.sections.length ∧
      (fw'.sections.getD 0 dSection).data =
        [9] ++ List.replicate ((wfwB.sections.getD 0 dSection).data_size - [9].length) 0 ∧
      (fw'.sections.getD 0 dSection).data.length =
        (wfwB.sections.getD 0 dSection).data_size ∧
      (∀ j, j ≠ 0 → fw'.sections.getD j dSection = wfwB.sections.getD j dSection) ∧
      fw'.raw.take (wfwB.sections.getD 0 dSection).data_offset =
        wfwB.raw.take (wfwB.sections.getD 0 dSection).data_offset ∧
      fw'.raw.drop ((wfwB.sections.getD 0 dSection).data_offset +
          (wfwB.sections.getD 0 dSection).data_size) =
        wfwB.raw.drop ((wfwB.sections.getD 0 dSection).data_offset +
          (wfwB.sections.getD 0 dSection).data_size) ∧
      bslice fw'.raw (wfwB.sections.getD 0 dSection).data_offset
          (wfwB.sections.getD 0 dSection).data_size =
        [9] ++ List.replicate ((wfwB.sections.getD 0 dSection).data_size - [9].length) 0 :=
  c6_set_payload wfwB 0 [9] (by decide) (by decide) (by decide)

/-- C4: the computed `data_offset` of section `i` equals the end of the
descriptor table (0x128 plus `item_num` times the 360-byte entry size) plus
the sum over all earlier sections of `data_size` plus padding, where the
padding rounds each section's end up to the next multiple of 4 (each
section starts 4-aligned, so the padding is `(4 - data_size % 4) % 4`). -/
theorem c4_offset_formula (raw : List Nat) (fw : HWNPFirmware) (h : parse raw = some fw)
    (i : Nat) (hi : i < fw.sections.length) :
    (fw.sections.getD i dSection).data_offset =
      296 + fw.item_num * 360 + padSum (fw.sections.take i) := by
  have hps := (parse_inv h).2.2.2.2
  have hal : (296 + fw.item_num * 360) % 4 = 0 := by omega
  exact parseSections_offsets hps hal i hi

set_option maxRecDepth 100000 in
/-- Witness for C4 at the concrete image `wbufB`. -/
theorem c4_offset_formula_witness :
    (wfwB.sections.getD 0 dSection).data_offset =
      296 + wfwB.item_num * 360 + padSum (wfwB.sections.take 0) :=
  c4_offset_formula wbufB wfwB (parse_getD_some (by rfl)) 0 (by decide)

theorem parseSections_agree {raw raw' : List Nat}
    (hlen : raw'.length = raw.length)
    (hag : ∀ p, 36 ≤ p → p < raw.length → raw'.getD p 0 = raw.getD p 0) :
    ∀ k i off, 36 ≤ off → parseSections raw' k i off = parseSections raw k i off := by
  intro k
  induction k with
  | zero => intro i off hoff; rfl
  | succ k ih =>
    intro i off hoff
    have hdesc : bslice raw' (descOff i) 360 = bslice raw (descOff i) 360 := by
      apply bslice_ext
      · rw [length_bslice, length_bslice, hlen]
      · intro p h1 h2
        by_cases hp : p < raw.length
        · exact hag p (by simp only [descOff] at h1; omega) hp
        · rw [getD_oob (by omega), getD_oob (by omega)]
    have hpay : ∀ sz, bslice raw' off sz = bslice raw off sz := by
      intro sz
      apply bslice_ext
      · rw [length_bslice, length_bslice, hlen]
      · intro p h1 h2
        by_cases hp : p < raw.length
        · exact hag p (by omega) hp
        · rw [getD_oob (by omega), getD_oob (by omega)]
    have hnext : 36 ≤ nextOffset off (le32 (bslice (bslice raw (descOff i) 360) 8 4)) := by
      have := nextOffset_ge off (le32 (bslice (bslice raw (descOff i) 360) 8 4))
      omega
    simp only [parseSections, hlen, hdesc, hpay]
    rw [ih (i + 1) _ hnext]

/-- C10: the parser lays the descriptor table out with the fixed 360-byte
entry size; the stored descriptor-entry-size field at 0x1C is read into
`item_desc_size` but never influences the computed layout.  Overwriting
bytes 0x1C-0x1F with any four bytes leaves the parse outcome, the item
count and the entire section list (offsets, sizes, paths, payloads,
classifications) unchanged. -/
theorem c10_desc_size_ignored (raw : List Nat) (v : List Nat)
    (hlen : 32 ≤ raw.length) (hv : v.length = 4) :
    Option.map (fun fw => (fw.item_num, fw.sections)) (parse (setSlice raw 28 v)) =
      Option.map (fun fw => (fw.item_num, fw.sections)) (parse raw) := by
  have hlen' : (setSlice raw 28 v).length = raw.length := length_setSlice (by omega)
  have hmagic : bslice (setSlice raw 28 v) 0 4 = bslice raw 0 4 :=
    bslice_setSlice_left (by omega) (by omega)
  have hitem : bslice (setSlice raw 28 v) 20 4 = bslice raw 20 4 :=
    bslice_setSlice_left (by omega) (by omega)
  have hag : ∀ p, 36 ≤ p → p < raw.length → (setSlice raw 28 v).getD p 0 = raw.getD p 0 := by
    intro p h1 h2
    rw [getD_setSlice (by omega) p, if_neg (by omega), if_neg (by omega)]
  have hsecs := parseSections_agree hlen' hag
  simp only [parse]
  rw [hmagic, hlen', hitem, hsecs _ 0 _ (by omega)]
  by_cases hm : bslice raw 0 4 ≠ hwnpMagic
  · rw [if_pos hm, if_pos hm]
  · rw [if_neg hm, if_neg hm, if_neg (by omega), if_neg (by omega)]
    cases parseSections raw (le32 (bslice raw 20 4) &&& 255) 0
        (296 + (le32 (bslice raw 20 4) &&& 255) * 360) with
    | none => rfl
    | some secs => rfl

set_option maxRecDepth 100000 in
/-- Witness for C10 at the concrete image `wbufB` with replacement field
bytes `[99, 0, 0, 0]`. -/
theorem c10_desc_size_ignored_witness :
    Option.map (fun fw => (fw.item_num, fw.sections)) (parse (setSlice wbufB 28 [99, 0, 0, 0])) =
      Option.map (fun fw => (fw.item_num, fw.sections)) (parse wbufB) :=
  c10_desc_size_ignored wbufB [99, 0, 0, 0] (by decide) (by decide)

theorem parseSections_proj {raw raw' : List Nat} (hmono : raw.length ≤ raw'.length)
    {bound : Nat}
    (hag : ∀ p, 296 ≤ p → p < bound → p < raw.length → raw'.getD p 0 = raw.getD p 0) :
    ∀ k i off secs, descOff (i + k) ≤ bound →
      parseSections raw k i off = some secs →
      ∃ secs', parseSections raw' k i off = some secs' ∧
        secs'.map sectProj = secs.map sectProj := by
  intro k
  induction k with
  | zero =>
    intro i off secs hb h
    simp only [parseSections, Option.some_inj] at h
    exact ⟨[], rfl, by rw [← h]⟩
  | succ k ih =>
    intro i off secs hb h
    simp only [parseSections] at h
    split at h
    · exact absurd h (by simp)
    · rename_i hguard
      split at h
      · exact absurd h (by simp)
      · rename_i rest hrest
        rw [Option.some_inj] at h
        subst h
        have hdo : 296 ≤ descOff i := by simp [descOff]
        have hdb : descOff i + 12 ≤ bound := by
          have h360 : descOff i + 360 ≤ descOff (i + (k + 1)) := by
            simp [descOff]
            omega
          omega
        have h8 : bslice raw' (descOff i + 8) 4 = bslice raw (descOff i + 8) 4 := by
          apply bslice_ext
          · rw [length_bslice, length_bslice]
            omega
          · intro p h1 h2
            exact hag p (by omega) (by omega) (by omega)
        have hsz : le32 (bslice (bslice raw' (descOff i) 360) 8 4)
            = le32 (bslice (bslice raw (descOff i) 360) 8 4) := by
          rw [bslice_bslice (by omega), bslice_bslice (by omega), h8]
        have hb2 : descOff (i + 1 + k) ≤ bound := by
          have : i + 1 + k = i + (k + 1) := by omega
          rw [this]
          exact hb
        obtain ⟨rest', hrest', hproj⟩ := ih (i + 1) _ rest hb2 hrest
        refine ⟨mkSection i off (bslice raw' (descOff i) 360)
          (bslice raw' off (le32 (bslice (bslice raw (descOff i) 360) 8 4))) :: rest', ?_, ?_⟩
        · simp only [parseSections]
          rw [if_neg (by omega), hsz, hrest']
        · simp only [List.map_cons, hproj, List.cons.injEq, and_true]
          simp [sectProj, mkSection, hsz]

/-- C3: structural round-trip.  Re-parsing the bytes produced by `save`
succeeds and yields the same item count, the same number of sections, and
for each section the same computed data offset and data size, even though
`save` mutates the manifest bytes and the checksum field (so byte identity
is not claimed). -/
theorem c3_structural_roundtrip (raw : List Nat) (fw : HWNPFirmware)
    (h : parse raw = some fw) :
    ∃ fw2, parse (save fw).raw = some fw2 ∧
      fw2.item_num = fw.item_num ∧
      fw2.sections.length = fw.sections.length ∧
      fw2.sections.map sectProj = fw.sections.map sectProj := by
  obtain ⟨hraw, hlen, hmagic, hitem, hsecs⟩ := parse_inv h
  have hlenf : fw.raw.length = raw.length := by rw [hraw]
  have hlen1 : raw.length ≤ (fix_signinfo fw).raw.length := by
    have := fix_signinfo_length_ge fw
    omega
  have h12 : 8 + (le32Of (crc32 ((fix_signinfo fw).raw.drop 12))).length ≤
      (fix_signinfo fw).raw.length := by
    simp [le32Of]
    omega
  have hlen2 : (save fw).raw.length = (fix_signinfo fw).raw.length := length_setSlice h12
  have hfix : ∀ p, p < 296 + fw.item_num * 360 → p < raw.length →
      (fix_signinfo fw).raw.getD p 0 = raw.getD p 0 := by
    intro p h1 h2
    rw [← hraw]
    exact fix_signinfo_frame h h1 (by omega)
  have hsave : ∀ p, p < 8 ∨ 12 ≤ p → (save fw).raw.getD p 0 =
      (fix_signinfo fw).raw.getD p 0 := by
    intro p hp
    show (setSlice (fix_signinfo fw).raw 8 _).getD p 0 = _
    rw [getD_setSlice h12 p]
    rcases hp with hp | hp
    · rw [if_pos hp]
    · rw [if_neg (by omega), if_neg (by simp [le32Of]; omega)]
  have hag : ∀ p, 296 ≤ p → p < 296 + fw.item_num * 360 → p < raw.length →
      (save fw).raw.getD p 0 = raw.getD p 0 := by
    intro p h1 h2 h3
    rw [hsave p (by omega), hfix p h2 h3]
  have hm2 : bslice (save fw).raw 0 4 = bslice raw 0 4 := by
    apply bslice_ext
    · rw [length_bslice, length_bslice]
      omega
    · intro p h1 h2
      rw [hsave p (by omega), hfix p (by omega) (by omega)]
  have hit2 : bslice (save fw).raw 20 4 = bslice raw 20 4 := by
    apply bslice_ext
    · rw [length_bslice, length_bslice]
      omega
    · intro p h1 h2
      rw [hsave p (by omega), hfix p (by omega) (by omega)]
  obtain ⟨secs', hsecs', hproj⟩ :=
    parseSections_proj (by omega) hag fw.item_num 0 (296 + fw.item_num * 360) fw.sections
      (by simp [descOff]) hsecs
  simp only [parse]
  rw [hm2, hmagic, if_neg (by simp), if_neg (by omega), hit2, ← hitem, hsecs']
  refine ⟨_, rfl, rfl, ?_, hproj⟩
  have := congrArg List.length hproj
  simpa using this

set_option maxRecDepth 100000 in
/-- Witness for C3 at the concrete image `wbufB`. -/
theorem c3_structural_roundtrip_witness :
    ∃ fw2, parse (save wfwB).raw = some fw2 ∧
      fw2.item_num = wfwB.item_num ∧
      fw2.sections.length = wfwB.sections.length ∧
      fw2.sections.map sectProj = wfwB.sections.map sectProj :=
  c3_structural_roundtrip wbufB wfwB (parse_getD_some (by rfl))

/-! Lemmas for the product-ID round trip (C5). -/

theorem mem_joinPids : ∀ (ids : List (List Nat)) (c : Nat), c ∈ joinPids ids →
    (∃ id ∈ ids, c ∈ id) ∨ c = 124
  | [], c, h => by simp [joinPids] at h
  | [x], c, h => by
    simp only [joinPids] at h
    exact Or.inl ⟨x, by simp, h⟩
  | x :: y :: rest, c, h => by
    simp only [joinPids, List.mem_append, List.mem_cons] at h
    rcases h with h | h | h
    · exact Or.inl ⟨x, by simp, h⟩
    · exact Or.inr h
    · rcases mem_joinPids (y :: rest) c h with ⟨id, hid, hcid⟩ | h124
      · exact Or.inl ⟨id, List.mem_cons_of_mem x hid, hcid⟩
      · exact Or.inr h124

theorem splitSep_ne_nil : ∀ l : List Nat, splitSep l ≠ []
  | [] => by simp [splitSep]
  | c :: rest => by
    simp only [splitSep]
    split
    · exact absurd (by assumption) (splitSep_ne_nil rest)
    · split <;> simp

theorem splitSep_sepfree : ∀ (id rest : List Nat), (∀ c ∈ id, c ≠ 124) →
    splitSep (id ++ 124 :: rest) = id :: splitSep rest
  | [], rest, _ => by
    simp only [List.nil_append, splitSep]
    split
    · rename_i heq
      exact absurd heq (splitSep_ne_nil rest)
    · rename_i f fs heq
      rw [if_pos (by decide), heq]
  | c :: id, rest, h => by
    have hc : c ≠ 124 := h c (by simp)
    have ih := splitSep_sepfree id rest (fun d hd => h d (by simp [hd]))
    simp only [List.cons_append, splitSep, List.append_eq]
    rw [ih]
    show (if (c == 124) = true then [] :: id :: splitSep rest
      else (c :: id) :: splitSep rest) = (c :: id) :: splitSep rest
    rw [if_neg (by simpa using hc)]

theorem filter_splitSep_joinPids :
    ∀ ids : List (List Nat), (∀ id ∈ ids, id ≠ [] ∧ ∀ c ∈ id, c ≠ 124) →
    (splitSep (joinPids ids ++ [124])).filter (fun s => !s.isEmpty) = ids
  | [], _ => by decide
  | [x], h => by
    have hx := h x (by simp)
    simp only [joinPids]
    rw [splitSep_sepfree x [] hx.2]
    have : splitSep [] = [[]] := rfl
    rw [this]
    simp only [List.filter]
    cases hc : x with
    | nil => exact absurd hc hx.1
    | cons a l =>
      subst hc
      simp [splitSep]
  | x :: y :: rest, h => by
    have hx := h x (by simp)
    have ih := filter_splitSep_joinPids (y :: rest)
      (fun id hid => h id (List.mem_cons_of_mem x hid))
    have hassoc : joinPids (x :: y :: rest) ++ [124]
        = x ++ 124 :: (joinPids (y :: rest) ++ [124]) := by
      simp [joinPids]
    rw [hassoc, splitSep_sepfree x _ hx.2]
    simp only [List.filter]
    cases hc : x with
    | nil => exact absurd hc hx.1
    | cons a l =>
      subst hc
      simp only [List.isEmpty_cons, Bool.not_false]
      rw [ih]

theorem findIdx_prefix_zero : ∀ (l1 l2 : List Nat), (∀ c ∈ l1, c ≠ 0) →
    (l1 ++ 0 :: l2).findIdx (fun b => b == 0) = l1.length
  | [], l2, _ => by simp [List.findIdx_cons]
  | c :: l1, l2, h => by
    have hc : c ≠ 0 := h c (by simp)
    simp only [List.cons_append, List.findIdx_cons]
    rw [show (c == 0) = false by simpa using hc]
    simp only [cond_false]
    rw [findIdx_prefix_zero l1 l2 (fun d hd => h d (by simp [hd]))]
    rfl

theorem decodeAsciiReplace_id {l : List Nat} (h : ∀ c ∈ l, c < 128) :
    decodeAsciiReplace l = l := by
  unfold decodeAsciiReplace
  have hcong : ∀ c ∈ l, asciiReplaceChar c = id c := by
    intro c hc
    simp [asciiReplaceChar, h c hc]
  rw [List.map_congr_left hcong, List.map_id]

theorem bslice_split (l : List Nat) (a n m : Nat) :
    bslice l a (n + m) = bslice l a n ++ bslice l (a + n) m := by
  simp only [bslice]
  rw [List.take_add]
  congr 1
  rw [List.drop_drop]

set_option maxRecDepth 100000 in
/-- C5 counterexample: the identifier list `[""]` (one empty string) has
delimiter-joined encoded length 1, which fits the 260-byte window, and
`set_product_ids` succeeds — but decoding the written window drops the
empty fragment and yields `[]`, not `[""]`. -/
theorem c5_roundtrip_counterexample :
    (joinPids [[]] ++ [124]).length ≤ 260 ∧
    set_product_ids wfwC [[]] = EditResult.ok c5fw ∧
    decodeProductIds c5fw.raw ≠ [[]] := by
  refine ⟨by decide, by rfl, by decide⟩

/-- C5 as amended: for identifier lists whose entries are nonempty, consist
of ASCII characters, and contain neither the delimiter nor a NUL, and whose
delimiter-joined encoding (with trailing delimiter) fits the 260-byte
window, `set_product_ids` succeeds and decoding the written window (scan to
the first NUL, split on the delimiter, drop empty fragments) returns the
same list in order. -/
theorem c5_roundtrip (fw : HWNPFirmware) (ids : List (List Nat))
    (hwin : 296 ≤ fw.raw.length)
    (hids : ∀ id ∈ ids, id ≠ [] ∧ ∀ c ∈ id, c < 128 ∧ c ≠ 124 ∧ c ≠ 0)
    (hcap : (joinPids ids ++ [124]).length ≤ 260) :
    ∃ fw', set_product_ids fw ids = EditResult.ok fw' ∧
      decodeProductIds fw'.raw = ids ∧ fw'.product_ids = ids := by
  have hlt : ∀ c ∈ joinPids ids ++ [124], c < 128 := by
    intro c hc
    rcases List.mem_append.mp hc with hc | hc
    · rcases mem_joinPids ids c hc with ⟨id, hid, hcid⟩ | h124
      · exact ((hids id hid).2 c hcid).1
      · subst h124
        norm_num
    · simp at hc
      subst hc
      norm_num
  have hnz : ∀ c ∈ joinPids ids ++ [124], c ≠ 0 := by
    intro c hc
    rcases List.mem_append.mp hc with hc | hc
    · rcases mem_joinPids ids c hc with ⟨id, hid, hcid⟩ | h124
      · exact ((hids id hid).2 c hcid).2.2
      · subst h124
        norm_num
    · simp at hc
      subst hc
      norm_num
  have hall : ((joinPids ids ++ [124]).all fun c => decide (c < 128)) = true := by
    rw [List.all_eq_true]
    intro c hc
    simpa using hlt c hc
  simp only [set_product_ids]
  rw [hall]
  simp only [Bool.not_true, Bool.false_eq_true, if_false]
  rw [if_neg (by omega)]
  refine ⟨_, rfl, ?_, rfl⟩
  have hlen1 : (setSlice fw.raw 36 (List.replicate 260 0)).length = fw.raw.length :=
    length_setSlice (by simp only [List.length_replicate]; omega)
  have hfirst : bslice (setSlice (setSlice fw.raw 36 (List.replicate 260 0)) 36
      (joinPids ids ++ [124])) 36 (joinPids ids ++ [124]).length = joinPids ids ++ [124] :=
    bslice_setSlice_self (by omega)
  have hzero : bslice (setSlice (setSlice fw.raw 36 (List.replicate 260 0)) 36
        (joinPids ids ++ [124])) (36 + (joinPids ids ++ [124]).length)
        (260 - (joinPids ids ++ [124]).length) =
      List.replicate (260 - (joinPids ids ++ [124]).length) 0 := by
    rw [bslice_setSlice_right (Nat.le_refl _) (by omega)]
    have hnest :=
      @bslice_bslice (setSlice fw.raw 36 (List.replicate 260 0)) 36 260
        (joinPids ids ++ [124]).length (260 - (joinPids ids ++ [124]).length) (by omega)
    rw [← hnest]
    have hwz : bslice (setSlice fw.raw 36 (List.replicate 260 0)) 36 260 =
        List.replicate 260 0 := by
      have hs := @bslice_setSlice_self fw.raw (List.replicate 260 0) 36
        (by simp only [List.length_replicate]; omega)
      rw [List.length_replicate] at hs
      exact hs
    rw [hwz]
    unfold bslice
    rw [List.drop_replicate, List.take_replicate, Nat.min_self]
  have hwin2 : bslice (setSlice (setSlice fw.raw 36 (List.replicate 260 0)) 36
        (joinPids ids ++ [124])) 36 260 =
      (joinPids ids ++ [124]) ++ List.replicate (260 - (joinPids ids ++ [124]).length) 0 := by
    have hsplit := bslice_split
      (setSlice (setSlice fw.raw 36 (List.replicate 260 0)) 36 (joinPids ids ++ [124]))
      36 (joinPids ids ++ [124]).length (260 - (joinPids ids ++ [124]).length)
    have h260 : (joinPids ids ++ [124]).length + (260 - (joinPids ids ++ [124]).length) =
        260 := by omega
    rw [h260] at hsplit
    rw [hsplit, hfirst, hzero]
  have hfilter := filter_splitSep_joinPids ids
    (fun id hid => ⟨(hids id hid).1, fun c hc => ((hids id hid).2 c hc).2.1⟩)
  simp only [decodeProductIds]
  by_cases hL : (joinPids ids ++ [124]).length = 260
  · have hwin' : bslice (setSlice (setSlice fw.raw 36 (List.replicate 260 0)) 36
        (joinPids ids ++ [124])) 36 260 = joinPids ids ++ [124] := by
      rw [hwin2, hL]
      simp
    have hcont : (bslice (setSlice (setSlice fw.raw 36 (List.replicate 260 0)) 36
        (joinPids ids ++ [124])) 36 260).contains 0 = false := by
      rw [hwin']
      show List.elem 0 (joinPids ids ++ [124]) = false
      rw [List.elem_eq_mem]
      simp only [decide_eq_false_iff_not]
      intro hmem
      exact hnz 0 hmem rfl
    rw [hcont]
    simp only [Bool.false_eq_true, if_false]
    rw [show (296 : Nat) - 36 = 260 from rfl, hwin', decodeAsciiReplace_id hlt]
    exact hfilter
  · have hrep : 260 - (joinPids ids ++ [124]).length =
        (260 - (joinPids ids ++ [124]).length - 1) + 1 := by omega
    have hcont : (bslice (setSlice (setSlice fw.raw 36 (List.replicate 260 0)) 36
        (joinPids ids ++ [124])) 36 260).contains 0 = true := by
      rw [hwin2]
      show List.elem 0 _ = true
      rw [List.elem_eq_mem]
      simp only [decide_eq_true_eq]
      apply List.mem_append.mpr
      right
      rw [List.mem_replicate]
      omega
    rw [hcont]
    simp only [if_true]
    have hdecomp : (setSlice (setSlice fw.raw 36 (List.replicate 260 0)) 36
        (joinPids ids ++ [124])).drop 36 =
        ((joinPids ids ++ [124]) ++
          List.replicate (260 - (joinPids ids ++ [124]).length) 0) ++
        (setSlice (setSlice fw.raw 36 (List.replicate 260 0)) 36
          (joinPids ids ++ [124])).drop 296 := by
      rw [← hwin2]
      show _ = bslice _ 36 260 ++ _
      simp only [bslice]
      have h1 := List.take_append_drop 260
        ((setSlice (setSlice fw.raw 36 (List.replicate 260 0)) 36
          (joinPids ids ++ [124])).drop 36)
      rw [List.drop_drop] at h1
      exact h1.symm
    have hfi : ((setSlice (setSlice fw.raw 36 (List.replicate 260 0)) 36
        (joinPids ids ++ [124])).drop 36).findIdx (fun b => b == 0) =
        (joinPids ids ++ [124]).length := by
      rw [hdecomp, hrep, List.replicate_succ, List.append_assoc, List.cons_append]
      exact findIdx_prefix_zero _ _ hnz
    rw [hfi, Nat.add_sub_cancel_left, hfirst, decodeAsciiReplace_id hlt]
    exact hfilter

set_option maxRecDepth 100000 in
/-- Witness for the amended C5 at the concrete image `wbufC` with the
single identifier `"A"`. -/
theorem c5_roundtrip_witness :
    ∃ fw', set_product_ids wfwC [[65]] = EditResult.ok fw' ∧
      decodeProductIds fw'.raw = [[65]] ∧ fw'.product_ids = [[65]] :=
  c5_roundtrip wfwC [[65]] (by decide) (by decide) (by decide)

/-! Length lemmas for the SHA-256 hex digest. -/

theorem length_roundStep (st : List Nat) (kw : Nat × Nat) : (roundStep st kw).length = 8 :=
  rfl

theorem length_foldl_roundStep (l : List (Nat × Nat)) :
    ∀ H : List Nat, H.length = 8 → (l.foldl roundStep H).length = 8 := by
  induction l with
  | nil => exact fun H h => h
  | cons x rest ih =>
    intro H h
    exact ih _ (length_roundStep H x)

theorem length_compress (H block : List Nat) (h : H.length = 8) :
    (compress H block).length = 8 := by
  have hst := length_foldl_roundStep (shaK.zip (extendW 48 (toWordsBE block))) H h
  simp [compress, List.length_zip, hst, h]

theorem length_shaBlocksAux : ∀ (fuel : Nat) (H l : List Nat), H.length = 8 →
    (shaBlocksAux fuel H l).length = 8
  | 0, H, _, h => h
  | fuel + 1, H, l, h => by
    simp only [shaBlocksAux]
    split
    · exact h
    · exact length_shaBlocksAux fuel _ _ (length_compress H _ h)

theorem length_sha256Words (msg : List Nat) : (sha256Words msg).length = 8 :=
  length_shaBlocksAux _ _ _ rfl

theorem length_flatten_const {α : Type} (f : α → List Nat) (c : Nat)
    (hf : ∀ x, (f x).length = c) : ∀ l : List α, ((l.map f).flatten).length = c * l.length
  | [] => by simp
  | x :: rest => by
    simp only [List.map_cons, List.flatten_cons, List.length_append, hf x,
      length_flatten_const f c hf rest, List.length_cons]
    ring

theorem length_sha256Bytes (msg : List Nat) : (sha256Bytes msg).length = 32 := by
  rw [sha256Bytes, length_flatten_const be4Of 4 (fun x => rfl), length_sha256Words]

theorem length_sha256HexCodes (msg : List Nat) : (sha256HexCodes msg).length = 64 := by
  rw [sha256HexCodes, length_flatten_const byteHexL 2 (fun x => rfl), length_sha256Bytes]

/-! The scan invariant. -/

theorem matchAt_spec {t : List Nat} {p : Nat} {m : SigMatch} (h : matchAt t p = some m) :
    m.hexStart = p ∧ p + 64 ≤ m.matchEnd ∧ m.matchEnd ≤ t.length ∧
      (∀ q, p ≤ q → q < p + 64 → isHexLower (t.getD q 0) = true) := by
  simp only [matchAt] at h
  split at h
  · rename_i hcond
    rw [Bool.and_eq_true] at hcond
    have hlen : p + 64 ≤ t.length := by
      have := hcond.1
      rw [beq_iff_eq, length_bslice] at this
      omega
    have hhex : ∀ q, p ≤ q → q < p + 64 → isHexLower (t.getD q 0) = true := by
      intro q h1 h2
      have hq : (bslice t p 64).getD (q - p) 0 = t.getD q 0 := by
        rw [getD_bslice, if_pos (by omega)]
        congr 1
        omega
      have hmem : t.getD q 0 ∈ bslice t p 64 := by
        rw [← hq, List.getD_eq_getElem _ 0 (by rw [length_bslice]; omega)]
        exact List.getElem_mem _
      exact List.all_eq_true.mp hcond.2 _ hmem
    split at h
    · exact absurd h (by simp)
    · rename_i hws
      split at h
      · rename_i hsl
        split at h
        · exact absurd h (by simp)
        · rename_i hrest
          rw [Option.some_inj] at h
          subst h
          refine ⟨rfl, ?_, ?_, hhex⟩
          · simp only
            omega
          · simp only
            have hj : p + 64 + ((t.drop (p + 64)).takeWhile isSpace).length < t.length := by
              by_contra hx
              rw [getD_oob (by omega)] at hsl
              simp at hsl
            have hr : ((t.drop (p + 64 + ((t.drop (p + 64)).takeWhile isSpace).length + 1)).takeWhile
                (fun c => c != 10)).length ≤
                (t.drop (p + 64 + ((t.drop (p + 64)).takeWhile isSpace).length + 1)).length :=
              List.Sublist.length_le (List.takeWhile_sublist _)
            rw [List.length_drop] at hr
            omega
      · exact absurd h (by simp)
  · exact absurd h (by simp)

theorem Chain_mono {t : List Nat} {p p' : Nat} {ms : List SigMatch} (hp : p' ≤ p)
    (h : Chain t p ms) : Chain t p' ms := by
  cases ms with
  | nil => trivial
  | cons m rest =>
    obtain ⟨h1, h2⟩ := h
    exact ⟨by omega, h2⟩

theorem chain_findMatchesAux (t : List Nat) :
    ∀ (fuel p : Nat), Chain t p (findMatchesAux t p fuel) := by
  intro fuel
  induction fuel with
  | zero => intro p; trivial
  | succ fuel ih =>
    intro p
    simp only [findMatchesAux]
    split
    · trivial
    · split
      · rename_i m hm
        obtain ⟨hs, he, hl, hh⟩ := matchAt_spec hm
        subst hs
        exact ⟨Nat.le_refl _, he, hl, hh, ih m.matchEnd⟩
      · exact Chain_mono (by omega) (ih (p + 1))

theorem fold_hash (sections : List HWNPSection) (sigOff : Nat) (t : List Nat) :
    ∀ (ms : List SigMatch) (raw : List Nat) (p : Nat),
      sigOff + t.length ≤ raw.length → Chain t p ms →
      (ms.foldl (applyHashMatch sections sigOff) raw).length = raw.length ∧
      (∀ q, q < sigOff + p →
        (ms.foldl (applyHashMatch sections sigOff) raw).getD q 0 = raw.getD q 0) ∧
      (∀ q, sigOff + t.length ≤ q →
        (ms.foldl (applyHashMatch sections sigOff) raw).getD q 0 = raw.getD q 0) ∧
      (∀ m ∈ ms, ∀ tgt, findHashTarget sections m = some tgt →
        (tgt.data_offset + tgt.data_size ≤ sigOff ∨ sigOff + t.length ≤ tgt.data_offset) →
        bslice (ms.foldl (applyHashMatch sections sigOff) raw) (sigOff + m.hexStart) 64 =
          sha256HexCodes (bslice (ms.foldl (applyHashMatch sections sigOff) raw)
            tgt.data_offset tgt.data_size)) := by
  intro ms
  induction ms with
  | nil =>
    intro raw p hb hch
    exact ⟨rfl, fun _ _ => rfl, fun _ _ => rfl, by simp⟩
  | cons m ms ih =>
    intro raw p hb hch
    obtain ⟨hp, h64, hEnd, hhex, hch'⟩ := hch
    rw [List.foldl_cons]
    cases htgt : findHashTarget sections m with
    | none =>
      have hraw1 : applyHashMatch sections sigOff raw m = raw := by
        unfold applyHashMatch
        rw [htgt]
      rw [hraw1]
      obtain ⟨l1, l2, l3, l4⟩ := ih raw m.matchEnd hb hch'
      refine ⟨l1, fun q hq => l2 q (by omega), l3, ?_⟩
      intro m' hm' tgt htgt' hd
      rcases List.mem_cons.mp hm' with rfl | hm'
      · rw [htgt] at htgt'
        exact absurd htgt' (by simp)
      · exact l4 m' hm' tgt htgt' hd
    | some tgt =>
      have hv : (sha256HexCodes (bslice raw tgt.data_offset tgt.data_size)).length = 64 :=
        length_sha256HexCodes _
      have hwrite : applyHashMatch sections sigOff raw m =
          setSlice raw (sigOff + m.hexStart)
            (sha256HexCodes (bslice raw tgt.data_offset tgt.data_size)) := by
        unfold applyHashMatch
        rw [htgt]
      have hin : (sigOff + m.hexStart) +
          (sha256HexCodes (bslice raw tgt.data_offset tgt.data_size)).length ≤ raw.length := by
        rw [hv]
        omega
      have hlen1 : (applyHashMatch sections sigOff raw m).length = raw.length := by
        rw [hwrite]
        exact length_setSlice hin
      obtain ⟨l1, l2, l3, l4⟩ := ih (applyHashMatch sections sigOff raw m) m.matchEnd
        (by omega) hch'
      refine ⟨by rw [l1, hlen1], ?_, ?_, ?_⟩
      · intro q hq
        rw [l2 q (by omega), hwrite]
        exact getD_setSlice_low (by omega) (by omega)
      · intro q hq
        rw [l3 q hq, hwrite]
        rw [getD_setSlice hin q, if_neg (by omega), if_neg (by omega)]
      · intro m' hm' tgt' htgt' hd
        rcases List.mem_cons.mp hm' with heq | hm'
        · subst heq
          rw [htgt] at htgt'
          rw [Option.some_inj] at htgt'
          subst htgt'
          have hslot : bslice (ms.foldl (applyHashMatch sections sigOff)
              (applyHashMatch sections sigOff raw m')) (sigOff + m'.hexStart) 64 =
              bslice (applyHashMatch sections sigOff raw m') (sigOff + m'.hexStart) 64 := by
            apply bslice_ext
            · rw [length_bslice, length_bslice, l1]
            · intro q h1 h2
              exact l2 q (by omega)
          have hself : bslice (applyHashMatch sections sigOff raw m') (sigOff + m'.hexStart) 64 =
              sha256HexCodes (bslice raw tgt.data_offset tgt.data_size) := by
            rw [hwrite]
            have hs := @bslice_setSlice_self raw
              (sha256HexCodes (bslice raw tgt.data_offset tgt.data_size))
              (sigOff + m'.hexStart) hin
            rw [hv] at hs
            exact hs
          have htgtreg : bslice (ms.foldl (applyHashMatch sections sigOff)
              (applyHashMatch sections sigOff raw m')) tgt.data_offset tgt.data_size =
              bslice raw tgt.data_offset tgt.data_size := by
            have hstep : bslice (applyHashMatch sections sigOff raw m')
                tgt.data_offset tgt.data_size = bslice raw tgt.data_offset tgt.data_size := by
              rw [hwrite]
              rcases hd with hd | hd
              · exact bslice_setSlice_left (by omega) (by omega)
              · apply bslice_setSlice_right
                · rw [hv]
                  omega
                · exact hin
            rw [← hstep]
            apply bslice_ext
            · rw [length_bslice, length_bslice, l1]
            · intro q h1 h2
              rcases hd with hd | hd
              · exact l2 q (by omega)
              · exact l3 q (by omega)
          rw [hslot, hself, htgtreg]
        · exact l4 m' hm' tgt' htgt' hd

theorem getD_replicate_zero (n q : Nat) : (List.replicate n (0 : Nat)).getD q 0 = 0 := by
  by_cases hq : q < n
  · rw [List.getD_eq_getElem _ 0 (by simpa using hq)]
    exact List.getElem_replicate _ _
  · exact getD_oob (by simpa using Nat.le_of_not_lt hq)

theorem getD_decodeAscii {l : List Nat} {q : Nat} (hq : q < l.length) :
    (decodeAsciiReplace l).getD q 0 = asciiReplaceChar (l.getD q 0) := by
  rw [List.getD_eq_getElem _ 0 (by simpa [decodeAsciiReplace] using hq),
    List.getD_eq_getElem _ 0 hq]
  simp [decodeAsciiReplace]

theorem Chain_zero_to (t : List Nat) (b : Nat) (ms : List SigMatch)
    (h : Chain t 0 ms) (hz : ∀ q, q < b → isHexLower (t.getD q 0) = false) :
    Chain t b ms := by
  cases ms with
  | nil => trivial
  | cons m rest =>
    obtain ⟨hp, h64, hEnd, hhex, hch'⟩ := h
    refine ⟨?_, h64, hEnd, hhex, hch'⟩
    by_contra hx
    push_neg at hx
    have h1 := hhex m.hexStart (Nat.le_refl _) (by omega)
    rw [hz m.hexStart (by omega)] at h1
    exact absurd h1 (by simp)

/-- C2 as amended: for a parsed image whose first signinfo section lies
within the buffer with at least 60 payload bytes, after `save` that
section's first 60 payload bytes are all zero, and every hash-line match in
the (zeroed) manifest text whose path resolves to a section whose data
region is disjoint from the manifest's data region carries, in place, the
64 lowercase SHA-256 hex characters of that section's final payload. -/
theorem c2_signinfo_patch (raw : List Nat) (fw : HWNPFirmware) (h : parse raw = some fw)
    (k : Nat) (sec : HWNPSection) (hsig : findSigIdx fw.sections 0 = some (k, sec))
    (hsz : 60 ≤ sec.data_size)
    (hbound : sec.data_offset + sec.data_size ≤ fw.raw.length) :
    bslice (save fw).raw sec.data_offset 60 = List.replicate 60 0 ∧
    ∀ m ∈ findMatches (sigTextOf (sigZeroed fw.raw sec.data_offset) sec.data_offset
        sec.data_size),
      ∀ tgt, findHashTarget fw.sections m = some tgt →
        (tgt.data_offset + tgt.data_size ≤ sec.data_offset ∨
          sec.data_offset + sec.data_size ≤ tgt.data_offset) →
        bslice (save fw).raw (sec.data_offset + m.hexStart) 64 =
          sha256HexCodes (bslice (save fw).raw tgt.data_offset tgt.data_size) := by
  obtain ⟨hraweq, hlen32, -, -, hsecs⟩ := parse_inv h
  have hlenf : 32 ≤ fw.raw.length := by rw [hraweq]; exact hlen32
  have hmem : sec ∈ fw.sections := findSigIdx_mem hsig
  have hoff : 296 + fw.item_num * 360 ≤ sec.data_offset :=
    parseSections_offset_ge hsecs sec hmem
  have hin60 : sec.data_offset + (List.replicate 60 (0 : Nat)).length ≤ fw.raw.length := by
    rw [List.length_replicate]
    omega
  have hlen0 : (sigZeroed fw.raw sec.data_offset).length = fw.raw.length :=
    length_setSlice hin60
  have htlen : (sigTextOf (sigZeroed fw.raw sec.data_offset) sec.data_offset
      sec.data_size).length = sec.data_size := by
    simp only [sigTextOf, decodeAsciiReplace, List.length_map, length_bslice]
    omega
  have hz60 : ∀ q, q < 60 → isHexLower ((sigTextOf (sigZeroed fw.raw sec.data_offset)
      sec.data_offset sec.data_size).getD q 0) = false := by
    intro q hq
    have hq' : q < (bslice (sigZeroed fw.raw sec.data_offset) sec.data_offset
        sec.data_size).length := by
      rw [length_bslice]
      omega
    rw [sigTextOf, getD_decodeAscii hq']
    rw [getD_bslice, if_pos (by omega)]
    have h0 : (sigZeroed fw.raw sec.data_offset).getD (sec.data_offset + q) 0 = 0 := by
      rw [sigZeroed, getD_setSlice hin60, if_neg (by omega),
        if_pos (by rw [List.length_replicate]; omega)]
      exact getD_replicate_zero _ _
    rw [h0]
    rfl
  have hch0 : Chain (sigTextOf (sigZeroed fw.raw sec.data_offset) sec.data_offset
      sec.data_size) 0 (findMatches (sigTextOf (sigZeroed fw.raw sec.data_offset)
      sec.data_offset sec.data_size)) := by
    rw [findMatches]
    exact chain_findMatchesAux _ _ 0
  have hch := Chain_zero_to _ 60 _ hch0 hz60
  obtain ⟨l1, l2, l3, l4⟩ := fold_hash fw.sections sec.data_offset
    (sigTextOf (sigZeroed fw.raw sec.data_offset) sec.data_offset sec.data_size)
    (findMatches (sigTextOf (sigZeroed fw.raw sec.data_offset) sec.data_offset sec.data_size))
    (sigZeroed fw.raw sec.data_offset) 60 (by rw [htlen]; omega) hch
  have hfixraw : (fix_signinfo fw).raw =
      (findMatches (sigTextOf (sigZeroed fw.raw sec.data_offset) sec.data_offset
        sec.data_size)).foldl (applyHashMatch fw.sections sec.data_offset)
        (sigZeroed fw.raw sec.data_offset) := by
    simp only [fix_signinfo]
    rw [hsig]
  have hlenfix : (fix_signinfo fw).raw.length = fw.raw.length := by
    rw [hfixraw, l1, hlen0]
  have hcrcin : 8 + (le32Of (crc32 ((fix_signinfo fw).raw.drop 12))).length ≤
      (fix_signinfo fw).raw.length := by
    simp only [le32Of, List.length_cons, List.length_nil]
    omega
  have hsaveraw : (save fw).raw = setSlice (fix_signinfo fw).raw 8
      (le32Of (crc32 ((fix_signinfo fw).raw.drop 12))) := rfl
  constructor
  · rw [hsaveraw, bslice_setSlice_right (by simp only [le32Of]; simp; omega) hcrcin, hfixraw]
    have hstep : bslice ((findMatches (sigTextOf (sigZeroed fw.raw sec.data_offset)
        sec.data_offset sec.data_size)).foldl (applyHashMatch fw.sections sec.data_offset)
        (sigZeroed fw.raw sec.data_offset)) sec.data_offset 60 =
        bslice (sigZeroed fw.raw sec.data_offset) sec.data_offset 60 := by
      apply bslice_ext
      · rw [length_bslice, length_bslice, l1]
      · intro q h1 h2
        exact l2 q (by omega)
    rw [hstep]
    have hself := @bslice_setSlice_self fw.raw (List.replicate 60 (0 : Nat))
      sec.data_offset hin60
    rw [List.length_replicate] at hself
    exact hself
  · intro m hm tgt htgt hd
    have htmem : tgt ∈ fw.sections := List.mem_of_find?_eq_some htgt
    have htoff : 296 + fw.item_num * 360 ≤ tgt.data_offset :=
      parseSections_offset_ge hsecs tgt htmem
    have hl4 := l4 m hm tgt htgt (by rw [htlen]; omega)
    rw [hsaveraw,
      bslice_setSlice_right (by simp only [le32Of]; simp; omega) hcrcin,
      bslice_setSlice_right (by simp only [le32Of]; simp; omega) hcrcin,
      hfixraw]
    exact hl4

set_option maxRecDepth 100000 in
/-- C2 counterexample to the claim as stated: in the saved image built from
`cbufSelf`, the manifest's single hash line resolves to a section (the
signinfo section itself), yet the 64 hex characters stored in the saved
buffer are not the SHA-256 digest of that section's current (final)
payload: the digest was taken before the line itself was overwritten. -/
theorem c2_counterexample :
    parse cbufSelf = some cfwSelf ∧
    findSigIdx cfwSelf.sections 0 = some (0, cfwSelf.sections.getD 0 dSection) ∧
    (cfwSelf.sections.getD 0 dSection).data_offset = 656 ∧
    (cfwSelf.sections.getD 0 dSection).data_size = 134 ∧
    findMatches (sigTextOf (save cfwSelf).raw 656 134) =
      [⟨60, 134, [47, 115, 105, 103, 110, 105, 110, 102, 111]⟩] ∧
    findHashTarget cfwSelf.sections
        ⟨60, 134, [47, 115, 105, 103, 110, 105, 110, 102, 111]⟩ =
      some (cfwSelf.sections.getD 0 dSection) ∧
    bslice (save cfwSelf).raw (656 + 60) 64 ≠
      sha256HexCodes (bslice (save cfwSelf).raw 656 134) := by
  have hlen12 : 8 + 4 ≤ (fix_signinfo cfwSelf).raw.length := by decide
  have h4 : (le32Of (crc32 ((fix_signinfo cfwSelf).raw.drop 12))).length = 4 := by
    simp [le32Of]
  have hin : 8 + (le32Of (crc32 ((fix_signinfo cfwSelf).raw.drop 12))).length ≤
      (fix_signinfo cfwSelf).raw.length := by
    rw [h4]
    exact hlen12
  have hsaveraw : (save cfwSelf).raw =
      setSlice (fix_signinfo cfwSelf).raw 8
        (le32Of (crc32 ((fix_signinfo cfwSelf).raw.drop 12))) := rfl
  have hs1 : bslice (save cfwSelf).raw (656 + 60) 64 =
      bslice (fix_signinfo cfwSelf).raw (656 + 60) 64 := by
    rw [hsaveraw]
    exact bslice_setSlice_right (by rw [h4]; omega) hin
  have hs2 : bslice (save cfwSelf).raw 656 134 =
      bslice (fix_signinfo cfwSelf).raw 656 134 := by
    rw [hsaveraw]
    exact bslice_setSlice_right (by rw [h4]; omega) hin
  refine ⟨parse_getD_some (by rfl), by decide, by decide, by decide, ?_, by decide, ?_⟩
  · have ht : sigTextOf (save cfwSelf).raw 656 134 =
        sigTextOf (fix_signinfo cfwSelf).raw 656 134 := by
      simp only [sigTextOf]
      rw [hs2]
    rw [ht]
    decide
  · rw [hs1, hs2]
    decide

set_option maxRecDepth 100000 in
/-- Witness for C2 at the concrete image `cbufSelf`, whose signinfo section
sits at offset 656 with 134 payload bytes. -/
theorem c2_signinfo_patch_witness :
    60 ≤ (cfwSelf.sections.getD 0 dSection).data_size ∧
    (bslice (save cfwSelf).raw (cfwSelf.sections.getD 0 dSection).data_offset 60 =
        List.replicate 60 0 ∧
      ∀ m ∈ findMatches (sigTextOf (sigZeroed cfwSelf.raw
          (cfwSelf.sections.getD 0 dSection).data_offset)
          (cfwSelf.sections.getD 0 dSection).data_offset
          (cfwSelf.sections.getD 0 dSection).data_size),
        ∀ tgt, findHashTarget cfwSelf.sections m = some tgt →
          (tgt.data_offset + tgt.data_size ≤
              (cfwSelf.sections.getD 0 dSection).data_offset ∨
            (cfwSelf.sections.getD 0 dSection).data_offset +
              (cfwSelf.sections.getD 0 dSection).data_size ≤ tgt.data_offset) →
          bslice (save cfwSelf).raw
              ((cfwSelf.sections.getD 0 dSection).data_offset + m.hexStart) 64 =
            sha256HexCodes (bslice (save cfwSelf).raw tgt.data_offset tgt.data_size)) :=
  ⟨by decide, c2_signinfo_patch cbufSelf cfwSelf (parse_getD_some (by rfl)) 0
    (cfwSelf.sections.getD 0 dSection) (by decide) (by decide) (by decide)⟩
